import Mathlib

/-!
Verification of the reconciliation core of the obsidian-todoister plugin.

The development shallowly embeds:
* `parseContent` (src/lib/parse-content.ts) — the content parser that scans a
  document for checklist occurrences, skipping fenced code regions;
* the Task Model codec (`obsidianTaskParse` / `obsidianTaskStringify`,
  modelled from the spec, the codec files being absent from the source tree);
* the reconciliation cache operations of `TodoisterPlugin` (src/main.ts):
  `#updateActiveFileCache`, `#deleteFromActiveFileCache`,
  `#applyTaskUpdateToFile`, `#removeTaskFromFile`, the success callback of
  `#createObsidianCacheEntry`, and the reading-view branch of
  `#onQueryUpdate`.

Strings are modelled as `List Char`; documents are split into lines exactly
as `content.split("\n")` does.  Remote calls and document writes are

represented as explicit `Effect` values returned by the embedded operations.
-/

namespace Todoister

/-- The backtick character, written via its code point. -/
def btick : Char := Char.ofNat 96

/-- The whitespace class used by JavaScript `trim()` and the regex class
`\s`, restricted to the ASCII range that can occur in this development. -/
def isWsChar (c : Char) : Bool :=
  c == ' ' || c == '\t' || c == '\n' || c == '\r' ||
    c == Char.ofNat 11 || c == Char.ofNat 12

/-- Characters the checklist regex `^(\s*(?:>\s*)*)(\s*)([-*+] \[.+)$`
can consume before the bullet: whitespace and blockquote markers. -/
def isQuoteIndentChar (c : Char) : Bool := isWsChar c || c == '>'

/-- JavaScript line terminators, which the regex metacharacter `.` refuses. -/
def isLineTerm (c : Char) : Bool :=
  c == '\n' || c == '\r' || c == Char.ofNat 0x2028 || c == Char.ofNat 0x2029

/-- The recognized list bullet characters of the checklist regex. -/
def isBullet (c : Char) : Bool := c == '-' || c == '*' || c == '+'

/-- `line.trim().startsWith("\x60\x60\x60")`: the fence-marker test of
`parseContent` (trailing trim cannot affect a prefix of non-whitespace
characters, so only the leading trim is relevant). -/
def isFence (l : List Char) : Bool :=
  (l.dropWhile isWsChar).take 3 == [btick, btick, btick]

/-- The canonical task representation `ObsidianTask` (id, content, checked). -/
structure ObsidianTask where
  id : String
  content : String
  checked : Bool
deriving DecidableEq, Repr

/-- Modelled from the spec: `tasksEquals` (src/lib/task/tasks-equals.ts is
absent from the source tree).  Per §4.4, a known id is a no-op exactly when
content and checked state are unchanged, so the comparison is on the
`content` and `checked` fields. -/
def tasksEquals (a b : ObsidianTask) : Bool :=
  a.content == b.content && a.checked == b.checked

/-- Modelled from the spec: `isObsidianId` (src/lib/task/is-obsidian-id.ts is
absent from the source tree).  Per §3 and §4.3, provisional ids carry a
reserved prefix unique to local generation. -/
def isObsidianId (id : String) : Bool := "obsidian-".isPrefixOf id

/-- Splits the trailing identity token off a decoded content string.
Modelled from the spec (§6): the identity token is appended to the content
in a recognizable format; here ` tid:<id>` with a nonempty, space-free id.
Returns `(content, id)` when a token is present. -/
def splitLastSpace : List Char → Option (List Char × List Char)
  | [] => none
  | c :: rest =>
    match splitLastSpace rest with
    | some (b, w) => some (c :: b, w)
    | none => if c == ' ' then some ([], rest) else none

def extractId (rest : List Char) : Option (List Char × List Char) :=
  match splitLastSpace rest with
  | some (before, 't' :: 'i' :: 'd' :: ':' :: idChars) =>
    if idChars.isEmpty then none else some (before, idChars)
  | _ => none

/-- Modelled from the spec: the Task Model decoder `obsidianTaskParse`
(src/lib/task/obsidian-task-parse.ts is absent from the source tree).
Decodes a canonical checklist-line string `<bullet> [<space|x>] <content>
[<id-token>]` into `{id, content, checked}` plus the `isNew` flag; a line
without an identity token is a brand-new task, represented with the
reserved-prefix provisional placeholder id. -/
def obsidianTaskParseChars (l : List Char) : Option (ObsidianTask × Bool) :=
  match l with
  | b :: ' ' :: '[' :: m :: ']' :: ' ' :: rest =>
    if isBullet b && (m == ' ' || m == 'x') then
      match extractId rest with
      | some (content, idChars) =>
        some ({ id := String.mk idChars, content := String.mk content,
                checked := m == 'x' }, false)
      | none =>
        some ({ id := "obsidian-new", content := String.mk rest,
                checked := m == 'x' }, true)
    else none
  | _ => none

/-- String-level wrapper of the modelled decoder. -/
def obsidianTaskParse (s : String) : Option (ObsidianTask × Bool) :=
  obsidianTaskParseChars s.data

/-- Modelled from the spec: the Task Model encoder `obsidianTaskStringify`
(src/lib/task/obsidian-task-stringify.ts is absent from the source tree).
Inverse of the decoder: `<bullet> [<space|x>] <content> <id-token>`. -/
def stringifyChars (t : ObsidianTask) : List Char :=
  '-' :: ' ' :: '[' :: (if t.checked then 'x' else ' ') :: ']' :: ' ' ::
    (t.content.data ++ ' ' :: 't' :: 'i' :: 'd' :: ':' :: t.id.data)

/-- String-level wrapper of the modelled encoder. -/
def obsidianTaskStringify (t : ObsidianTask) : String :=
  String.mk (stringifyChars t)

/-- An editor position `{line, ch}`. -/
structure EditorPosition where
  line : Nat
  ch : Nat
deriving DecidableEq, Repr

/-- One entry of `ParseResults`: a textual occurrence of a task. -/
structure Occurrence where
  task : ObsidianTask
  lineNumber : Nat
  isNew : Bool
  fromPos : EditorPosition
  toPos : EditorPosition
deriving DecidableEq, Repr

/-- The per-line checklist match of `parseContent`
(`line.match(/^(\s*(?:>\s*)*)(\s*)([-*+] \[.+)$/)`).  The combined
quote-prefix and indentation groups are exactly the maximal leading run of
whitespace and `>` characters (the bullet that must follow is in neither
class), so the match succeeds iff the remainder is a bullet, a space, `[`
and at least one further character, none of them a line terminator.
Returns (combined prefix length, task string). -/
def isTaskRest : List Char → Bool
  | b :: ' ' :: '[' :: c :: cs =>
    isBullet b && (c :: cs).all (fun ch => !isLineTerm ch)
  | _ => false

def matchTaskLine (l : List Char) : Option (Nat × List Char) :=
  let rest := l.dropWhile isQuoteIndentChar
  if isTaskRest rest then some (l.length - rest.length, rest) else none

/-- Processing of one non-fence line outside a code block: regex match, then
delegation to the Task Model decoder; a failure of either yields no
occurrence. -/
def parseLine (n : Nat) (l : List Char) : Option Occurrence :=
  (matchTaskLine l).bind fun pt =>
    (obsidianTaskParseChars pt.2).map fun ti =>
      { task := ti.1, lineNumber := n, isNew := ti.2,
        fromPos := ⟨n, pt.1⟩, toPos := ⟨n, l.length⟩ }

/-- The line loop of `parseContent`: a fence-marker line toggles
`inCodeBlock` and is otherwise skipped; lines inside a code block are
skipped; remaining lines are matched and decoded. -/
def parseLinesAux : List (List Char) → Nat → Bool → List Occurrence
  | [], _, _ => []
  | l :: rest, n, inCode =>
    if isFence l then parseLinesAux rest (n + 1) (!inCode)
    else if inCode then parseLinesAux rest (n + 1) inCode
    else
      match parseLine n l with
      | none => parseLinesAux rest (n + 1) inCode
      | some occ => occ :: parseLinesAux rest (n + 1) inCode

/-- `content.split("\n")` on character lists. -/
def splitLinesAux : List Char → List Char → List (List Char)
  | [], acc => [acc.reverse]
  | c :: rest, acc =>
    if c == '\n' then acc.reverse :: splitLinesAux rest []
    else splitLinesAux rest (c :: acc)

/-- The lines of a document, as `content.split("\n")` produces them. -/
def docLines (content : String) : List (List Char) :=
  splitLinesAux content.data []

/-- `parseContent` (src/lib/parse-content.ts): split into lines, track the
fenced-code flag, and emit the occurrences of the matched, decodable
checklist lines in document order. -/
def parseContent (content : String) : List Occurrence :=
  parseLinesAux (docLines content) 0 false

/-- The fence-free scan: every line is matched and decoded, with no
fenced-code suppression.  Used to express that documents without any
fence-marker line are parsed line-by-line. -/
def scanLines : List (List Char) → Nat → List Occurrence
  | [], _ => []
  | l :: rest, n =>
    match parseLine n l with
    | none => scanLines rest (n + 1)
    | some occ => occ :: scanLines rest (n + 1)

/-- One step of the fenced-code flag. -/
def fenceStep (s : Bool) (l : List Char) : Bool := if isFence l then !s else s

/-- The fenced-code flag of `parseContent` at the start of line `k`. -/
def stateAt (lines : List (List Char)) (k : Nat) : Bool :=
  (lines.take k).foldl fenceStep false

/-- One step of the rewrite loop of `#applyTaskUpdateToFile`: a parsed
occurrence of the updated task whose fields differ is replaced in place,
keeping the characters before `from.ch` (`prefix = original.slice(0,
entry.from.ch)`, `next = prefix + updatedLine`). -/
def applyEntry (updated : ObsidianTask) (ls : List (List Char))
    (e : Occurrence) : List (List Char) :=
  if e.task.id == updated.id && !tasksEquals e.task updated then
    ls.set e.lineNumber
      ((ls.getD e.lineNumber []).take e.fromPos.ch ++ stringifyChars updated)
  else ls

/-- `#applyTaskUpdateToFile` (src/main.ts): re-parse the document and
rewrite every occurrence of the updated task's id whose fields differ. -/
def applyTaskUpdateToFile (content : String) (updated : ObsidianTask) :
    List (List Char) :=
  (parseContent content).foldl (applyEntry updated) (docLines content)

/-- The value held by a task query observer: either the task's current
value or the deleted/not-found signal (`{ deleted: true, id }`). -/
inductive RemoteData where
  | task (t : ObsidianTask)
  | deleted (id : String)
deriving DecidableEq, Repr

/-- The task id a remote value speaks about. -/
def RemoteData.rid : RemoteData → String
  | .task t => t.id
  | .deleted i => i

/-- `ActiveFileCacheItemTodoist`: a remote-backed cache entry.  The live
query observer is modelled by its current result (`queryData`); the two
mutation handles act through `Effect`s. -/
structure TodoistItem where
  lastLocalEditAt : Option Nat
  queryData : Option RemoteData
deriving DecidableEq, Repr

/-- `ActiveFileCacheItemObsidian`: a pending-creation cache entry. -/
structure ObsidianItem where
  lastLocalEditAt : Option Nat
deriving DecidableEq, Repr

/-- `ActiveFileCacheItem`: the discriminated union of the two entry kinds. -/
inductive CacheItem where
  | todoist (item : TodoistItem)
  | obsidian (item : ObsidianItem)
deriving DecidableEq, Repr

/-- `isObsidianCacheItem` (src/main.ts): the `"add" in item` probe. -/
def isObsidianCacheItem : CacheItem → Bool
  | .obsidian _ => true
  | .todoist _ => false

/-- The `#activeFileCache` map, as an insertion-ordered association list
with (invariantly) pairwise-distinct keys. -/
abbrev ActiveFileCache := List (String × CacheItem)

/-- The externally visible actions of the reconciliation core: the three
remote mutations, query-observer teardown, and document writes. -/
inductive Effect where
  | toggleCheck (id : String) (checked : Bool)
  | updateContent (id : String) (content : String)
  | addTask (id : String) (content : String) (checked : Bool)
  | destroyQuery (id : String)
  | docWrite (lines : List (List Char))
deriving DecidableEq, Repr

/-- Remote mutations and document writes (everything except teardown). -/
def isPushEffect : Effect → Bool
  | .toggleCheck _ _ => true
  | .updateContent _ _ => true
  | .addTask _ _ _ => true
  | .docWrite _ => true
  | .destroyQuery _ => false

/-- The two per-task mutations issued for a changed known id. -/
def isTaskMutation : Effect → Bool
  | .toggleCheck _ _ => true
  | .updateContent _ _ => true
  | _ => false

/-- `Map.get`. -/
def cacheGet (c : ActiveFileCache) (id : String) : Option CacheItem :=
  match c.find? (fun p => p.1 == id) with
  | some p => some p.2
  | none => none

/-- The key list of the cache. -/
def cacheKeys (c : ActiveFileCache) : List String := c.map Prod.fst

/-- `Map.set`: update in place when present, append when absent. -/
def cacheSet (c : ActiveFileCache) (id : String) (v : CacheItem) :
    ActiveFileCache :=
  if (c.find? (fun p => p.1 == id)).isSome then
    c.map (fun p => if p.1 == id then (id, v) else p)
  else c ++ [(id, v)]

/-- `#deleteFromActiveFileCache` (src/main.ts): destroy the entry's query
observer when it is remote-backed, then delete the entry. -/
def cacheDeleteE (c : ActiveFileCache) (id : String) :
    ActiveFileCache × List Effect :=
  match cacheGet c id with
  | none => (c, [])
  | some item =>
    (c.filter (fun p => !(p.1 == id)),
      if isObsidianCacheItem item then [] else [Effect.destroyQuery id])

/-- `#createCacheEntry` (src/main.ts): a provisional (reserved-prefix) id
gets a pending-creation entry whose create-mutation is fired immediately; a
durable id gets a remote-backed entry whose query is seeded optimistically
with the locally parsed task. -/
def createCacheEntry (task : ObsidianTask) : CacheItem × List Effect :=
  if isObsidianId task.id then
    (.obsidian ⟨none⟩, [Effect.addTask task.id task.content task.checked])
  else
    (.todoist ⟨none, some (.task task)⟩, [])

/-- The per-occurrence body of the first loop of `#updateActiveFileCache`
(src/main.ts lines 405–439): a known id pushes (when allowed and changed)
and stamps `lastLocalEditAt`; an unknown id gets a fresh entry. -/
def updateOneCore (now : Nat) (allowPush : Bool) (cache : ActiveFileCache)
    (effs : List Effect) (occ : Occurrence) :
    ActiveFileCache × List Effect :=
  match cacheGet cache occ.task.id with
  | some (.obsidian _) => (cache, effs)
  | some (.todoist item) =>
    match item.queryData with
    | none => (cache, effs)
    | some (.deleted _) => (cache, effs)
    | some (.task todoistTask) =>
      if allowPush && !tasksEquals todoistTask occ.task then
        (cacheSet cache occ.task.id (.todoist
          (if (todoistTask.checked != occ.task.checked) ||
              (todoistTask.content != occ.task.content) then
            ⟨some now, item.queryData⟩ else item)),
         effs ++
           (if todoistTask.checked != occ.task.checked then
             [Effect.toggleCheck occ.task.id occ.task.checked] else []) ++
           (if todoistTask.content != occ.task.content then
             [Effect.updateContent occ.task.id occ.task.content] else []))
      else (cache, effs)
  | none =>
    (cacheSet cache occ.task.id (createCacheEntry occ.task).1,
      effs ++ (createCacheEntry occ.task).2)

/-- The loop body as a fold step over (cache, effect list) pairs. -/
def updateOneOccurrence (now : Nat) (allowPush : Bool)
    (st : ActiveFileCache × List Effect) (occ : Occurrence) :
    ActiveFileCache × List Effect :=
  updateOneCore now allowPush st.1 st.2 occ

/-- The teardown effects of the sweep loop of `#updateActiveFileCache`:
every tracked id absent from the latest occurrence list has its query
observer destroyed if it is remote-backed. -/
def sweepEffects (existed : List String) (c : ActiveFileCache) :
    List Effect :=
  c.filterMap (fun p =>
    if existed.contains p.1 then none
    else if isObsidianCacheItem p.2 then none
    else some (Effect.destroyQuery p.1))

/-- `#updateActiveFileCache` (src/main.ts): reconcile the occurrence list
against the cache — push changed known ids (when `allowPush`), create
entries for unknown ids, then sweep away every id absent from the list. -/
def updateActiveFileCache (now : Nat) (cache : ActiveFileCache)
    (parseResults : List Occurrence) (allowPush : Bool) :
    ActiveFileCache × List Effect :=
  let existed := parseResults.map (fun o => o.task.id)
  let st := parseResults.foldl (updateOneOccurrence now allowPush) (cache, [])
  (st.1.filter (fun p => existed.contains p.1),
    st.2 ++ sweepEffects existed st.1)

/-- Insertion into a list kept in descending line-number order. -/
def insertDesc (x : Occurrence) : List Occurrence → List Occurrence
  | [] => [x]
  | y :: ys =>
    if y.lineNumber ≤ x.lineNumber then x :: y :: ys else y :: insertDesc x ys

/-- `.sort((a, b) => b.lineNumber - a.lineNumber)`. -/
def sortByLineDesc (l : List Occurrence) : List Occurrence :=
  l.foldr insertDesc []

/-- `#removeTaskFromFile` (src/main.ts): parse the document, keep the
occurrences of the given id, and splice their lines out of the document in
descending line order. -/
def removeTaskFromFile (content : String) (taskId : String) :
    List (List Char) :=
  let parsed := (parseContent content).filter (fun o => o.task.id == taskId)
  (sortByLineDesc parsed).foldl
    (fun ls o => ls.eraseIdx o.lineNumber) (docLines content)

/-- Reference form of line removal: keep exactly the lines whose index
(counted from `k`) is not listed. -/
def removeLineNumbersFrom (s : List Nat) : Nat → List (List Char) →
    List (List Char)
  | _, [] => []
  | k, l :: rest =>
    if s.contains k then removeLineNumbersFrom s (k + 1) rest
    else l :: removeLineNumbersFrom s (k + 1) rest

/-- Reference form of line removal: keep exactly the lines whose index is
not listed. -/
def removeLineNumbers (s : List Nat) (lines : List (List Char)) :
    List (List Char) :=
  removeLineNumbersFrom s 0 lines

/-- The parser applied to an already-split line list (used when an
operation re-reads the document it just wrote). -/
def parseContentLines (ls : List (List Char)) : List Occurrence :=
  parseLinesAux ls 0 false

/-- `#refreshActiveCacheFromFile` (src/main.ts): re-parse the document and
reconcile without pushing. -/
def refreshActiveCacheFromFile (now : Nat) (cache : ActiveFileCache)
    (ls : List (List Char)) : ActiveFileCache × List Effect :=
  updateActiveFileCache now cache (parseContentLines ls) false

/-- Whether a remote update falls inside the echo-suppression window of the
entry for its id (src/main.ts lines 736–744, `RECENT_LOCAL_EDIT_MS`). -/
def recentLocalEdit (now : Nat) (entry : Option CacheItem) : Bool :=
  match entry with
  | some (.todoist item) =>
    match item.lastLocalEditAt with
    | some ts => decide (now - ts < 2000)
    | none => false
  | _ => false

/-- The reading-view (no live editor) branch of `#onQueryUpdate`
(src/main.ts lines 722–786): inside the echo-suppression window the update
is ignored; a deleted signal removes the id's lines from the document,
refreshes the cache from the new text without pushing, and tears the entry
down; otherwise the update is applied to the file and the cache refreshed
without pushing.  Returns (document lines, cache, effects). -/
def onQueryUpdateFile (now : Nat) (cache : ActiveFileCache)
    (content : String) (r : RemoteData) :
    List (List Char) × ActiveFileCache × List Effect :=
  if recentLocalEdit now (cacheGet cache r.rid) then
    (docLines content, cache, [])
  else
    match r with
    | .deleted tid =>
      let lines2 := removeTaskFromFile content tid
      let wrote := if lines2 = docLines content then []
        else [Effect.docWrite lines2]
      let rc := refreshActiveCacheFromFile now cache lines2
      let dc := cacheDeleteE rc.1 tid
      (lines2, dc.1, wrote ++ rc.2 ++ dc.2)
    | .task t =>
      let lines2 := applyTaskUpdateToFile content t
      let wrote := if lines2 = docLines content then []
        else [Effect.docWrite lines2]
      let rc := refreshActiveCacheFromFile now cache lines2
      (lines2, rc.1, wrote ++ rc.2)

/-- First index at which `pat` occurs in `doc` (`String.indexOf`). -/
def findOcc (pat : List Char) : List Char → Option Nat
  | [] => if pat.isEmpty then some 0 else none
  | c :: rest =>
    if pat.isPrefixOf (c :: rest) then some 0
    else (findOcc pat rest).map (fun i => i + 1)

/-- Replace the first occurrence of `pat` by `rep`. -/
def replaceFirst (pat rep doc : List Char) : Option (List Char) :=
  (findOcc pat doc).map (fun i =>
    doc.take i ++ rep ++ doc.drop (i + pat.length))

/-- The id-rewrite loop of the creation callback in
`#createObsidianCacheEntry` (src/main.ts lines 548–558): repeatedly replace
the first textual occurrence of the provisional id by the durable id until
none remains.  The source loop carries no fuel; here the number of
iterations is bounded by an explicit fuel argument.  Whenever some character
of the pattern is absent from the replacement, each iteration strictly
decreases the count of that character in the document, so the source loop
takes at most `doc.count c ≤ doc.length` iterations and the call below with
fuel `doc.length` computes its exact terminal state
(`replaceLoop_terminal`). -/
def replaceLoop : Nat → List Char → List Char → List Char → List Char
  | 0, doc, _, _ => doc
  | fuel + 1, doc, pat, rep =>
    match replaceFirst pat rep doc with
    | none => doc
    | some doc2 => replaceLoop fuel doc2 pat rep

/-- Whether `pat` occurs in `doc` (`doc.includes(pat)`). -/
def occursIn (pat doc : List Char) : Bool := (findOcc pat doc).isSome

/-- The success callback of the create-mutation in
`#createObsidianCacheEntry` (src/main.ts lines 541–569): if the document
still contains the provisional id, every textual occurrence of it is
rewritten to the durable id, a remote-backed entry for the durable id is
added, and in every case the provisional entry is deleted.  (The nested
`#handleContentUpdate()` re-reconciliation pass is the separately modelled
`updateActiveFileCache`.) -/
def onAddTaskSuccess (provId : String) (durTask : ObsidianTask)
    (doc : List Char) (cache : ActiveFileCache) :
    List Char × ActiveFileCache × List Effect :=
  if occursIn provId.data doc then
    let doc2 := replaceLoop doc.length doc provId.data
      durTask.id.data
    let cache2 := cacheSet cache durTask.id
      (.todoist ⟨none, some (.task durTask)⟩)
    let dc := cacheDeleteE cache2 provId
    (doc2, dc.1, Effect.docWrite [doc2] :: dc.2)
  else
    let dc := cacheDeleteE cache provId
    (doc, dc.1, dc.2)

/-- A successful per-line parse records the line number it was given. -/
theorem parseLine_lineNumber {n : Nat} {l : List Char} {occ : Occurrence}
    (h : parseLine n l = some occ) : occ.lineNumber = n := by
  unfold parseLine at h
  cases hm : matchTaskLine l with
  | none => rw [hm] at h; simp at h
  | some v =>
    rw [hm] at h
    rw [Option.some_bind] at h
    cases hp : obsidianTaskParseChars v.2 with
    | none => rw [hp] at h; simp at h
    | some w =>
      rw [hp] at h
      simp at h
      rw [← h]

/-- Characterization of the occurrences emitted by the line loop: each one
comes from a line at offset `k` that is not a fence marker, is reached with
the fenced-code flag off, and matches and decodes to the occurrence. -/
theorem mem_parseLinesAux {lines : List (List Char)} {n : Nat} {inCode : Bool}
    {occ : Occurrence} (h : occ ∈ parseLinesAux lines n inCode) :
    ∃ k, k < lines.length ∧ occ.lineNumber = n + k ∧
      (lines.take k).foldl fenceStep inCode = false ∧
      isFence (lines.getD k []) = false ∧
      parseLine (n + k) (lines.getD k []) = some occ := by
  induction lines generalizing n inCode with
  | nil => simp [parseLinesAux] at h
  | cons l rest ih =>
    rw [parseLinesAux] at h
    have pack : ∀ b : Bool, fenceStep inCode l = b →
        occ ∈ parseLinesAux rest (n + 1) b →
        ∃ k, k < (l :: rest).length ∧ occ.lineNumber = n + k ∧
          ((l :: rest).take k).foldl fenceStep inCode = false ∧
          isFence ((l :: rest).getD k []) = false ∧
          parseLine (n + k) ((l :: rest).getD k []) = some occ := by
      intro b hb h'
      obtain ⟨k, hk, hln, hstate, hfk, hpl⟩ := ih h'
      refine ⟨k + 1, by simpa using hk, by omega, ?_, by simpa using hfk, ?_⟩
      · rw [List.take_succ_cons, List.foldl_cons, hb]; exact hstate
      · have e : n + (k + 1) = n + 1 + k := by omega
        rw [e, List.getD_cons_succ]; exact hpl
    by_cases hf : isFence l
    · rw [if_pos hf] at h
      exact pack (!inCode) (by simp [fenceStep, hf]) h
    · rw [if_neg hf] at h
      cases inCode with
      | true =>
        rw [if_pos rfl] at h
        exact pack true (by simp [fenceStep, hf]) h
      | false =>
        rw [if_neg (by simp)] at h
        cases hpl : parseLine n l with
        | none =>
          rw [hpl] at h
          exact pack false (by simp [fenceStep, hf]) h
        | some occ' =>
          rw [hpl] at h
          rcases List.mem_cons.mp h with rfl | h'
          · exact ⟨0, by simp, by simpa using parseLine_lineNumber hpl,
              rfl, by simpa using hf, by simpa using hpl⟩
          · exact pack false (by simp [fenceStep, hf]) h'

/-- The flag at line `k + 1` is the flag at line `k` stepped by line `k`. -/
theorem stateAt_succ {lines : List (List Char)} {k : Nat}
    (hk : k < lines.length) :
    stateAt lines (k + 1) = fenceStep (stateAt lines k) (lines.getD k []) := by
  unfold stateAt
  have h1 : lines[k]? = some lines[k] := List.getElem?_eq_getElem hk
  have h2 : lines.getD k [] = lines[k] := by
    rw [List.getD_eq_getElem?_getD, h1]; rfl
  rw [List.take_succ, List.foldl_append, h1, h2]
  rfl

/-- The flag is constant over a fence-free range of lines. -/
theorem stateAt_const {lines : List (List Char)} {a b : Nat}
    (hab : a ≤ b) (hb : b ≤ lines.length)
    (h : ∀ m, a ≤ m → m < b → isFence (lines.getD m []) = false) :
    stateAt lines b = stateAt lines a := by
  induction b, hab using Nat.le_induction with
  | base => rfl
  | succ b hab ih =>
    have hb' : b < lines.length := by omega
    rw [stateAt_succ hb']
    have hfb : isFence (lines.getD b []) = false := h b hab (by omega)
    have hs : fenceStep (stateAt lines b) (lines.getD b []) = stateAt lines b := by
      unfold fenceStep; rw [hfb]; simp
    rw [hs]
    exact ih (by omega) (fun m hm hmb => h m hm (by omega))

/-- Specialization of the characterization to `parseContent`. -/
theorem mem_parseContent {content : String} {occ : Occurrence}
    (h : occ ∈ parseContent content) :
    occ.lineNumber < (docLines content).length ∧
      stateAt (docLines content) occ.lineNumber = false ∧
      isFence ((docLines content).getD occ.lineNumber []) = false ∧
      parseLine occ.lineNumber ((docLines content).getD occ.lineNumber []) =
        some occ := by
  obtain ⟨k, hk, hln, hstate, hfk, hpl⟩ := mem_parseLinesAux h
  have : occ.lineNumber = k := by omega
  subst this
  exact ⟨hk, hstate, hfk, by simpa using hpl⟩

/-- C1: any checklist line strictly between an opening fence marker (line
`i`, a fence line reached with the flag off) and the matching closing fence
marker produces no Occurrence, and if the fence is never closed, no later
line produces an Occurrence.  Both cases are instances of this statement:
line `k` lies after the opening fence with no fence marker strictly in
between (for a matched fence, every `k` strictly inside the fence qualifies;
for an unterminated fence, every later `k` qualifies), and `parseContent`
emits no Occurrence for line `k`. -/
theorem c1_fence_exclusion (content : String) (i k : Nat)
    (hi : i < (docLines content).length)
    (hfi : isFence ((docLines content).getD i []) = true)
    (hsi : stateAt (docLines content) i = false)
    (hik : i < k)
    (hbetween : ∀ m, i < m → m < k →
      isFence ((docLines content).getD m []) = false) :
    (parseContent content).filter (fun occ => occ.lineNumber == k) = [] := by
  rw [List.filter_eq_nil_iff]
  intro occ hocc hbk
  have hlk : occ.lineNumber = k := by simpa using hbk
  obtain ⟨hlen, hstate, _, _⟩ := mem_parseContent hocc
  rw [hlk] at hlen hstate
  have hconst : stateAt (docLines content) k = stateAt (docLines content) (i + 1) :=
    stateAt_const (by omega) (by omega)
      (fun m h1 h2 => hbetween m (by omega) h2)
  have hopen : stateAt (docLines content) (i + 1) = true := by
    rw [stateAt_succ hi]
    unfold fenceStep
    rw [hfi, hsi]
    simp
  rw [hconst, hopen] at hstate
  exact absurd hstate (by simp)

/-- Witness for C1: in a document whose lines 1–3 are a fenced code block,
the checklist line at line 2 produces no Occurrence. -/
theorem c1_fence_exclusion_witness :
    (parseContent "- [ ] a tid:x\n```\n- [ ] hidden tid:h\n```").filter
      (fun occ => occ.lineNumber == 2) = [] :=
  c1_fence_exclusion "- [ ] a tid:x\n```\n- [ ] hidden tid:h\n```" 1 2
    (by decide) (by decide) (by decide) (by decide)
    (by intro m h1 h2; omega)

/-- A line whose trimmed content begins with a blockquote marker is not a
fence-marker line: `trim()` removes only whitespace, so the leading `>`
survives and the trimmed line cannot start with three backticks. -/
theorem quoted_line_not_fence {l : List Char}
    (h : (l.dropWhile isWsChar).head? = some '>') : isFence l = false := by
  unfold isFence
  cases e : l.dropWhile isWsChar with
  | nil => rw [e] at h; simp at h
  | cons c cs =>
    rw [e] at h
    simp at h
    subst h
    have hred : (List.take 3 ('>' :: cs) == [btick, btick, btick]) =
        (('>' == btick) && (List.take 2 cs == [btick, btick])) := rfl
    rw [hred]
    have hb : ('>' == btick) = false := by decide
    rw [hb, Bool.false_and]

/-- If no line of the document is a fence-marker line, the fenced-code flag
never turns on and the parser scans every line. -/
theorem parse_no_fence {lines : List (List Char)} {n : Nat}
    (h : ∀ l ∈ lines, isFence l = false) :
    parseLinesAux lines n false = scanLines lines n := by
  induction lines generalizing n with
  | nil => rfl
  | cons l rest ih =>
    have hl : isFence l = false := h l (by simp)
    rw [parseLinesAux, scanLines, hl]
    simp only [Bool.false_eq_true, if_false]
    cases hpl : parseLine n l with
    | none => exact ih (fun x hx => h x (by simp [hx]))
    | some occ => rw [ih (fun x hx => h x (by simp [hx]))]

/-- C9: a line whose trimmed content begins with a blockquote marker never
toggles the inside-fenced-code-block flag, so a fenced code block whose
fence lines are nested inside a blockquote does not suppress parsing: in a
document all of whose lines carry a leading blockquote marker, every line is
scanned (checklist lines inside the quoted code block included). -/
theorem c9_quoted_fence_lines (l : List Char) (content : String)
    (h2 : (l.dropWhile isWsChar).head? = some '>')
    (h1 : ∀ l' ∈ docLines content, (l'.dropWhile isWsChar).head? = some '>') :
    isFence l = false ∧
      parseContent content = scanLines (docLines content) 0 :=
  ⟨quoted_line_not_fence h2,
    parse_no_fence (fun x hx => quoted_line_not_fence (h1 x hx))⟩

/-- Witness for C9: a quoted code fence does not suppress parsing — the
checklist line between the two quoted fence lines is still emitted. -/
theorem c9_quoted_fence_lines_witness :
    isFence ("> ```".data) = false ∧
      parseContent "> ```\n> - [ ] inside tid:i\n> ```" =
        scanLines (docLines "> ```\n> - [ ] inside tid:i\n> ```") 0 ∧
      (parseContent "> ```\n> - [ ] inside tid:i\n> ```").length = 1 := by
  have h := c9_quoted_fence_lines ("> ```".data)
    "> ```\n> - [ ] inside tid:i\n> ```" (by decide) (by decide)
  exact ⟨h.1, h.2, by decide⟩

/-- `take` up to the length of a `takeWhile` yields the `takeWhile`. -/
theorem take_takeWhile_len (p : Char → Bool) (l : List Char) :
    l.take (l.takeWhile p).length = l.takeWhile p := by
  induction l with
  | nil => rfl
  | cons c cs ih =>
    by_cases hp : p c
    · rw [List.takeWhile_cons, if_pos hp, List.length_cons,
        List.take_succ_cons, ih]
    · rw [List.takeWhile_cons, if_neg hp]
      rfl

/-- A successful match returns the combined quote-prefix/indent length. -/
theorem matchTaskLine_some {l : List Char} {v : Nat × List Char}
    (h : matchTaskLine l = some v) :
    v.1 = (l.takeWhile isQuoteIndentChar).length ∧
      v.2 = l.dropWhile isQuoteIndentChar := by
  unfold matchTaskLine at h
  by_cases ht : isTaskRest (l.dropWhile isQuoteIndentChar)
  · rw [if_pos ht] at h
    have hlen : (l.takeWhile isQuoteIndentChar).length +
        (l.dropWhile isQuoteIndentChar).length = l.length := by
      have hsplit := congrArg List.length
        (List.takeWhile_append_dropWhile isQuoteIndentChar l)
      rw [List.length_append] at hsplit
      exact hsplit
    cases h
    exact ⟨by omega, rfl⟩
  · rw [if_neg ht] at h
    simp at h

/-- The occurrence span recorded by `parseLine`: the replacement span starts
right after the quote-prefix plus indentation and ends at the line length. -/
theorem parseLine_spans {n : Nat} {l : List Char} {occ : Occurrence}
    (h : parseLine n l = some occ) :
    occ.fromPos.ch = (l.takeWhile isQuoteIndentChar).length ∧
      occ.toPos.ch = l.length := by
  unfold parseLine at h
  cases hm : matchTaskLine l with
  | none => rw [hm] at h; simp at h
  | some v =>
    rw [hm, Option.some_bind] at h
    cases hp : obsidianTaskParseChars v.2 with
    | none => rw [hp] at h; simp at h
    | some w =>
      rw [hp] at h
      simp at h
      rw [← h]
      exact ⟨(matchTaskLine_some hm).1, rfl⟩

/-- Lower bound on emitted line numbers. -/
theorem parseLinesAux_lineNumber_le {lines : List (List Char)} {n : Nat}
    {inCode : Bool} {occ : Occurrence} (h : occ ∈ parseLinesAux lines n inCode) :
    n ≤ occ.lineNumber := by
  obtain ⟨k, _, hln, _, _, _⟩ := mem_parseLinesAux h
  omega

/-- The emitted occurrences have strictly increasing line numbers. -/
theorem parseLinesAux_pairwise (lines : List (List Char)) (n : Nat)
    (inCode : Bool) :
    (parseLinesAux lines n inCode).Pairwise
      (fun a c => a.lineNumber < c.lineNumber) := by
  induction lines generalizing n inCode with
  | nil => exact List.Pairwise.nil
  | cons l rest ih =>
    rw [parseLinesAux]
    by_cases hf : isFence l
    · rw [if_pos hf]; exact ih (n + 1) (!inCode)
    · rw [if_neg hf]
      cases inCode with
      | true => rw [if_pos rfl]; exact ih (n + 1) true
      | false =>
        rw [if_neg (by simp)]
        cases hpl : parseLine n l with
        | none => exact ih (n + 1) false
        | some occ =>
          refine List.Pairwise.cons ?_ (ih (n + 1) false)
          intro c hc
          have h1 : occ.lineNumber = n := parseLine_lineNumber hpl
          have h2 : n + 1 ≤ c.lineNumber := parseLinesAux_lineNumber_le hc
          omega

theorem applyEntry_length (updated : ObsidianTask) (ls : List (List Char))
    (e : Occurrence) : (applyEntry updated ls e).length = ls.length := by
  unfold applyEntry
  split
  · exact List.length_set ls _ _
  · rfl

theorem foldl_applyEntry_length (updated : ObsidianTask)
    (entries : List Occurrence) (ls : List (List Char)) :
    (entries.foldl (applyEntry updated) ls).length = ls.length := by
  induction entries generalizing ls with
  | nil => rfl
  | cons e es ih => rw [List.foldl_cons, ih, applyEntry_length]

theorem applyEntry_getD_ne (updated : ObsidianTask) (ls : List (List Char))
    (e : Occurrence) {m : Nat} (hm : e.lineNumber ≠ m) :
    (applyEntry updated ls e).getD m [] = ls.getD m [] := by
  unfold applyEntry
  split
  · rw [List.getD_eq_getElem?_getD, List.getElem?_set_ne hm,
      ← List.getD_eq_getElem?_getD]
  · rfl

theorem foldl_applyEntry_getD_untouched (updated : ObsidianTask)
    {entries : List Occurrence} {ls : List (List Char)} {m : Nat}
    (h : ∀ e ∈ entries, e.lineNumber ≠ m) :
    (entries.foldl (applyEntry updated) ls).getD m [] = ls.getD m [] := by
  induction entries generalizing ls with
  | nil => rfl
  | cons e es ih =>
    rw [List.foldl_cons, ih (fun x hx => h x (by simp [hx])),
      applyEntry_getD_ne updated ls e (h e (by simp))]

/-- Prefix preservation through the rewrite fold: for every entry, the
characters before its `from.ch` are unchanged in the result. -/
theorem foldl_applyEntry_take (updated : ObsidianTask)
    {entries : List Occurrence} {ls : List (List Char)}
    (hp : entries.Pairwise (fun a c => a.lineNumber < c.lineNumber))
    (hch : ∀ e ∈ entries, e.fromPos.ch ≤ (ls.getD e.lineNumber []).length) :
    ∀ e ∈ entries,
      ((entries.foldl (applyEntry updated) ls).getD e.lineNumber []).take
          e.fromPos.ch =
        (ls.getD e.lineNumber []).take e.fromPos.ch := by
  induction entries generalizing ls with
  | nil => intro e he; cases he
  | cons e es ih =>
    intro e' he'
    rw [List.foldl_cons]
    have hpes : es.Pairwise (fun a c => a.lineNumber < c.lineNumber) :=
      List.Pairwise.sublist (List.sublist_cons_self e es) hp
    have hlt : ∀ x ∈ es, e.lineNumber < x.lineNumber :=
      fun x hx => (List.pairwise_cons.mp hp).1 x hx
    rcases List.mem_cons.mp he' with rfl | hmem
    · have huntouched : ((es.foldl (applyEntry updated)
          (applyEntry updated ls e')).getD e'.lineNumber []) =
          (applyEntry updated ls e').getD e'.lineNumber [] :=
        foldl_applyEntry_getD_untouched updated
          (fun x hx => by have := hlt x hx; omega)
      rw [huntouched]
      unfold applyEntry
      split
      · by_cases hlen : e'.lineNumber < ls.length
        · rw [List.getD_eq_getElem?_getD, List.getElem?_set_self hlen]
          have hle : e'.fromPos.ch ≤ (ls.getD e'.lineNumber []).length :=
            hch e' (by simp)
          rw [Option.getD_some, List.take_append_of_le_length
            (by rw [List.length_take]; omega),
            List.take_take, min_self]
        · rw [List.set_eq_of_length_le (by omega)]
      · rfl
    · have h1 : (applyEntry updated ls e).getD e'.lineNumber [] =
          ls.getD e'.lineNumber [] :=
        applyEntry_getD_ne updated ls e (by have := hlt e' hmem; omega)
      have h2 := ih hpes (fun x hx => by
        rw [applyEntry_getD_ne updated ls e (by have := hlt x hx; omega)]
        exact hch x (by simp [hx])) e' hmem
      rw [h2, h1]

theorem takeWhile_length_le (p : Char → Bool) (l : List Char) :
    (l.takeWhile p).length ≤ l.length := by
  induction l with
  | nil => simp
  | cons c cs ih =>
    rw [List.takeWhile_cons]
    split
    · simpa using ih
    · simp

/-- C7: for every parsed checklist line, the Occurrence's replacement span
starts at the character index right after the blockquote prefix plus
indentation (all characters before it are whitespace or `>`) and ends at
the line's length; rewriting the span through `#applyTaskUpdateToFile`
leaves the characters before the span — in particular the blockquote
markers and the indentation — unchanged. -/
theorem c7_quote_prefix_preservation (content : String)
    (updated : ObsidianTask) (occ : Occurrence)
    (hocc : occ ∈ parseContent content) :
    occ.lineNumber < (docLines content).length ∧
      occ.toPos.ch = ((docLines content).getD occ.lineNumber []).length ∧
      occ.fromPos.ch = (((docLines content).getD occ.lineNumber
        []).takeWhile isQuoteIndentChar).length ∧
      (((docLines content).getD occ.lineNumber []).take
        occ.fromPos.ch).all isQuoteIndentChar = true ∧
      (applyTaskUpdateToFile content updated).length =
        (docLines content).length ∧
      ((applyTaskUpdateToFile content updated).getD occ.lineNumber
        []).take occ.fromPos.ch =
        ((docLines content).getD occ.lineNumber []).take occ.fromPos.ch ∧
      (((applyTaskUpdateToFile content updated).getD occ.lineNumber
        []).take occ.fromPos.ch).count '>' =
        (((docLines content).getD occ.lineNumber []).take
          occ.fromPos.ch).count '>' := by
  obtain ⟨hlen, _, _, hpl⟩ := mem_parseContent hocc
  obtain ⟨hfrom, hto⟩ := parseLine_spans hpl
  have hch : ∀ e ∈ parseContent content,
      e.fromPos.ch ≤ ((docLines content).getD e.lineNumber []).length := by
    intro e he
    obtain ⟨_, _, _, hpl'⟩ := mem_parseContent he
    rw [(parseLine_spans hpl').1]
    exact takeWhile_length_le _ _
  have htake : ((applyTaskUpdateToFile content updated).getD occ.lineNumber
      []).take occ.fromPos.ch =
      ((docLines content).getD occ.lineNumber []).take occ.fromPos.ch :=
    foldl_applyEntry_take updated (parseLinesAux_pairwise _ 0 false) hch
      occ hocc
  refine ⟨hlen, hto, hfrom, ?_, foldl_applyEntry_length updated _ _, htake,
    congrArg (List.count '>') htake⟩
  rw [hfrom, take_takeWhile_len]
  exact List.all_eq_true.mpr (fun x hx => List.mem_takeWhile_imp hx)

/-- Witness for C7: a task nested in two blockquote markers keeps its
`> > ` prefix when rewritten. -/
theorem c7_quote_prefix_preservation_witness :
    let doc := "> > - [x] hello tid:t1"
    let occ : Occurrence :=
      { task := { id := "t1", content := "hello", checked := true },
        lineNumber := 0, isNew := false,
        fromPos := ⟨0, 4⟩, toPos := ⟨0, 22⟩ }
    occ ∈ parseContent doc ∧
      (occ.lineNumber < (docLines doc).length ∧
        occ.toPos.ch = ((docLines doc).getD occ.lineNumber []).length ∧
        occ.fromPos.ch = (((docLines doc).getD occ.lineNumber
          []).takeWhile isQuoteIndentChar).length ∧
        (((docLines doc).getD occ.lineNumber []).take
          occ.fromPos.ch).all isQuoteIndentChar = true ∧
        (applyTaskUpdateToFile doc ⟨"t1", "bye", false⟩).length =
          (docLines doc).length ∧
        ((applyTaskUpdateToFile doc ⟨"t1", "bye", false⟩).getD occ.lineNumber
          []).take occ.fromPos.ch =
          ((docLines doc).getD occ.lineNumber []).take occ.fromPos.ch ∧
        (((applyTaskUpdateToFile doc ⟨"t1", "bye", false⟩).getD occ.lineNumber
          []).take occ.fromPos.ch).count '>' =
          (((docLines doc).getD occ.lineNumber []).take
            occ.fromPos.ch).count '>') :=
  ⟨by decide,
    c7_quote_prefix_preservation "> > - [x] hello tid:t1" ⟨"t1", "bye", false⟩
      _ (by decide)⟩

theorem data_mk (l : List Char) : (String.mk l).data = l := rfl

/-- A list without spaces has no last-space split. -/
theorem splitLastSpace_none {l : List Char} (h : ∀ c ∈ l, c ≠ ' ') :
    splitLastSpace l = none := by
  induction l with
  | nil => rfl
  | cons c rest ih =>
    rw [splitLastSpace, ih (fun x hx => h x (by simp [hx]))]
    have : (c == ' ') = false := by
      have := h c (by simp)
      simpa using this
    rw [this]
    rfl

/-- Splitting off the last space-free word. -/
theorem splitLastSpace_append (content w : List Char)
    (h : ∀ c ∈ w, c ≠ ' ') :
    splitLastSpace (content ++ ' ' :: w) = some (content, w) := by
  induction content with
  | nil =>
    rw [List.nil_append, splitLastSpace, splitLastSpace_none h]
    rfl
  | cons c cs ih =>
    rw [List.cons_append, splitLastSpace, ih]

/-- A list containing a space always has a last-space split. -/
theorem splitLastSpace_append_ne_none (l1 l2 : List Char) :
    splitLastSpace (l1 ++ ' ' :: l2) ≠ none := by
  induction l1 with
  | nil =>
    rw [List.nil_append, splitLastSpace]
    cases h2 : splitLastSpace l2 with
    | some p => simp
    | none => simp
  | cons d ds ihd =>
    rw [List.cons_append, splitLastSpace]
    cases h2 : splitLastSpace (ds ++ ' ' :: l2) with
    | some p => simp
    | none => exact absurd h2 ihd

/-- The word returned by a last-space split contains no space. -/
theorem splitLastSpace_word {l b w : List Char}
    (h : splitLastSpace l = some (b, w)) : ∀ c ∈ w, c ≠ ' ' := by
  induction l generalizing b with
  | nil => exact absurd h (by simp [splitLastSpace])
  | cons c rest ih =>
    rw [splitLastSpace] at h
    cases hs : splitLastSpace rest with
    | some p =>
      rw [hs] at h
      obtain ⟨b', w'⟩ := p
      simp at h
      obtain ⟨_, hw⟩ := h
      subst hw
      exact ih hs
    | none =>
      rw [hs] at h
      by_cases hc : (c == ' ') = true
      · rw [if_pos hc] at h
        simp at h
        obtain ⟨_, hw⟩ := h
        subst hw
        intro x hx hxeq
        subst hxeq
        obtain ⟨l1, l2, rfl⟩ := List.append_of_mem hx
        exact splitLastSpace_append_ne_none l1 l2 hs
      · rw [if_neg hc] at h
        simp at h

/-- Decoding a content string carrying the identity token recovers the
content and the id. -/
theorem extractId_token (content id : List Char) (h1 : id ≠ [])
    (h2 : ∀ c ∈ id, c ≠ ' ') :
    extractId (content ++ ' ' :: 't' :: 'i' :: 'd' :: ':' :: id) =
      some (content, id) := by
  unfold extractId
  have hw : ∀ c ∈ 't' :: 'i' :: 'd' :: ':' :: id, c ≠ ' ' := by
    intro c hc
    rcases List.mem_cons.mp hc with rfl | hc
    · decide
    rcases List.mem_cons.mp hc with rfl | hc
    · decide
    rcases List.mem_cons.mp hc with rfl | hc
    · decide
    rcases List.mem_cons.mp hc with rfl | hc
    · decide
    exact h2 c hc
  rw [splitLastSpace_append content _ hw]
  have hne : id.isEmpty = false := by
    cases id with
    | nil => exact absurd rfl h1
    | cons c cs => rfl
  simp [hne]

/-- Ids produced by a successful token extraction are nonempty and contain
no space. -/
theorem extractId_some {rest content idChars : List Char}
    (h : extractId rest = some (content, idChars)) :
    idChars ≠ [] ∧ ∀ c ∈ idChars, c ≠ ' ' := by
  unfold extractId at h
  split at h
  · rename_i before idChars' hs
    split at h
    · simp at h
    · rename_i hne
      simp at h
      obtain ⟨_, hid⟩ := h
      subst hid
      refine ⟨by simpa [List.isEmpty_iff] using hne, ?_⟩
      intro c hc
      exact splitLastSpace_word hs c (by simp [hc])
  · simp at h

/-- Every id produced by the modelled decoder is nonempty and space-free. -/
theorem parse_id_ok {l : List Char} {t : ObsidianTask} {n : Bool}
    (h : obsidianTaskParseChars l = some (t, n)) :
    t.id.data ≠ [] ∧ ∀ c ∈ t.id.data, c ≠ ' ' := by
  unfold obsidianTaskParseChars at h
  split at h
  · split at h
    · split at h
      · rename_i hex
        cases h
        exact extractId_some hex
      · cases h
        constructor
        · show ("obsidian-new" : String).data ≠ []
          decide
        · show ∀ c ∈ ("obsidian-new" : String).data, c ≠ ' '
          decide
    · exact absurd h (by simp)
  · exact absurd h (by simp)

/-- Decoding the encoding of a task with a well-formed id recovers the task
(and the line is no longer new). -/
theorem parse_stringify (t : ObsidianTask) (h1 : t.id.data ≠ [])
    (h2 : ∀ c ∈ t.id.data, c ≠ ' ') :
    obsidianTaskParseChars (stringifyChars t) = some (t, false) := by
  obtain ⟨tid, tcontent, tchecked⟩ := t
  cases tchecked with
  | false =>
    show obsidianTaskParseChars ('-' :: ' ' :: '[' :: ' ' :: ']' :: ' ' ::
      (tcontent.data ++ ' ' :: 't' :: 'i' :: 'd' :: ':' :: tid.data)) = _
    rw [obsidianTaskParseChars]
    rw [if_pos (by decide)]
    rw [extractId_token tcontent.data tid.data h1 h2]
    rfl
  | true =>
    show obsidianTaskParseChars ('-' :: ' ' :: '[' :: 'x' :: ']' :: ' ' ::
      (tcontent.data ++ ' ' :: 't' :: 'i' :: 'd' :: ':' :: tid.data)) = _
    rw [obsidianTaskParseChars]
    rw [if_pos (by decide)]
    rw [extractId_token tcontent.data tid.data h1 h2]
    rfl

/-- C8: round-trip law for the Task Model codec — for every Task produced by
decoding a syntactically valid checklist-line string, decoding the encoding
of that Task yields the same `{id, content, checked}`. -/
theorem c8_round_trip (s : String) (t : ObsidianTask) (n : Bool)
    (h : obsidianTaskParse s = some (t, n)) :
    obsidianTaskParse (obsidianTaskStringify t) = some (t, false) := by
  obtain ⟨h1, h2⟩ := parse_id_ok (l := s.data) h
  show obsidianTaskParseChars (String.mk (stringifyChars t)).data = _
  rw [data_mk]
  exact parse_stringify t h1 h2

/-- Witness for C8: the round trip on a concrete decoded checklist line. -/
theorem c8_round_trip_witness :
    obsidianTaskParse "- [x] hello tid:abc" =
      some (⟨"abc", "hello", true⟩, false) ∧
    obsidianTaskParse (obsidianTaskStringify ⟨"abc", "hello", true⟩) =
      some (⟨"abc", "hello", true⟩, false) :=
  ⟨by decide,
    c8_round_trip "- [x] hello tid:abc" ⟨"abc", "hello", true⟩ false
      (by decide)⟩

theorem cacheGet_nil (id : String) : cacheGet [] id = none := rfl

theorem cacheGet_cons (p : String × CacheItem) (rest : ActiveFileCache)
    (id : String) :
    cacheGet (p :: rest) id =
      if p.1 == id then some p.2 else cacheGet rest id := by
  unfold cacheGet
  rw [List.find?_cons]
  by_cases hk : (p.1 == id) = true
  · simp [hk]
  · simp [hk]

theorem cacheGet_append (c1 c2 : ActiveFileCache) (id : String) :
    cacheGet (c1 ++ c2) id =
      match cacheGet c1 id with
      | some v => some v
      | none => cacheGet c2 id := by
  induction c1 with
  | nil => rw [List.nil_append, cacheGet_nil]
  | cons p rest ih =>
    rw [List.cons_append, cacheGet_cons, cacheGet_cons]
    by_cases hk : (p.1 == id) = true
    · rw [if_pos hk, if_pos hk]
    · rw [if_neg hk, if_neg hk, ih]

theorem find?_isSome_eq_cacheGet (c : ActiveFileCache) (id : String) :
    (c.find? (fun p => p.1 == id)).isSome = (cacheGet c id).isSome := by
  unfold cacheGet
  cases c.find? (fun p => p.1 == id) with
  | none => rfl
  | some p => rfl

theorem cacheGet_set_self (c : ActiveFileCache) (id : String)
    (v : CacheItem) : cacheGet (cacheSet c id v) id = some v := by
  unfold cacheSet
  by_cases hp : (c.find? (fun p => p.1 == id)).isSome = true
  · rw [if_pos hp]
    rw [find?_isSome_eq_cacheGet] at hp
    induction c with
    | nil => rw [cacheGet_nil] at hp; simp at hp
    | cons p rest ih =>
      rw [List.map_cons]
      by_cases hk : (p.1 == id) = true
      · rw [if_pos hk, cacheGet_cons]
        simp
      · rw [if_neg hk, cacheGet_cons, if_neg hk]
        rw [cacheGet_cons, if_neg hk] at hp
        exact ih hp
  · rw [if_neg hp]
    rw [find?_isSome_eq_cacheGet] at hp
    rw [cacheGet_append]
    have hnone : cacheGet c id = none := by
      cases h : cacheGet c id with
      | none => rfl
      | some v => rw [h] at hp; simp at hp
    rw [hnone, cacheGet_cons]
    simp

theorem cacheGet_set_ne (c : ActiveFileCache) {id id' : String}
    (v : CacheItem) (h : id' ≠ id) :
    cacheGet (cacheSet c id v) id' = cacheGet c id' := by
  unfold cacheSet
  by_cases hp : (c.find? (fun p => p.1 == id)).isSome = true
  · rw [if_pos hp]
    clear hp
    induction c with
    | nil => rfl
    | cons p rest ih =>
      rw [List.map_cons, cacheGet_cons, cacheGet_cons]
      by_cases hk : (p.1 == id) = true
      · have hk' : p.1 = id := by simpa using hk
        rw [if_pos hk]
        have h1 : ((id, v).1 == id') = false := by simp [Ne.symm h]
        have h2 : (p.1 == id') = false := by simp [hk', Ne.symm h]
        rw [h1, h2]
        simp only [Bool.false_eq_true, if_false]
        exact ih
      · rw [if_neg hk]
        by_cases hm : (p.1 == id') = true
        · rw [if_pos hm, if_pos hm]
        · rw [if_neg hm, if_neg hm, ih]
  · rw [if_neg hp]
    rw [cacheGet_append]
    cases hc : cacheGet c id' with
    | some p => rfl
    | none =>
      rw [cacheGet_cons]
      have : ((id, v).1 == id') = false := by simp [Ne.symm h]
      rw [this]
      rfl

theorem cacheGet_filter_key (c : ActiveFileCache) (q : String → Bool)
    (id : String) :
    cacheGet (c.filter (fun p => q p.1)) id =
      if q id then cacheGet c id else none := by
  induction c with
  | nil => simp [cacheGet_nil]
  | cons p rest ih =>
    by_cases hk : (p.1 == id) = true
    · have hk' : p.1 = id := by simpa using hk
      subst hk'
      by_cases hq : q p.1 = true
      · rw [List.filter_cons_of_pos (by simpa using hq), cacheGet_cons,
          cacheGet_cons]
        simp [hq]
      · rw [List.filter_cons_of_neg (by simpa using hq), ih, if_neg hq,
          if_neg hq]
    · by_cases hq : q p.1 = true
      · rw [List.filter_cons_of_pos (by simpa using hq), cacheGet_cons,
          if_neg hk, cacheGet_cons, if_neg hk, ih]
      · rw [List.filter_cons_of_neg (by simpa using hq), ih, cacheGet_cons,
          if_neg hk]

theorem cacheGet_isSome_iff_mem_keys (c : ActiveFileCache) (id : String) :
    (cacheGet c id).isSome = true ↔ id ∈ cacheKeys c := by
  induction c with
  | nil => simp [cacheGet_nil, cacheKeys]
  | cons p rest ih =>
    rw [cacheGet_cons]
    by_cases hk : (p.1 == id) = true
    · have hk' : p.1 = id := by simpa using hk
      simp [hk, cacheKeys, hk']
    · rw [if_neg hk]
      simp only [cacheKeys, List.map_cons, List.mem_cons]
      rw [show (cacheKeys rest = List.map Prod.fst rest) from rfl] at ih
      rw [ih]
      constructor
      · exact fun h => Or.inr h
      · rintro (h | h)
        · exact absurd h.symm (by simpa using hk)
        · exact h

theorem cacheGet_some_mem {c : ActiveFileCache} {id : String}
    {v : CacheItem} (h : cacheGet c id = some v) : (id, v) ∈ c := by
  induction c with
  | nil => rw [cacheGet_nil] at h; simp at h
  | cons p rest ih =>
    rw [cacheGet_cons] at h
    by_cases hk : (p.1 == id) = true
    · rw [if_pos hk] at h
      have hk' : p.1 = id := by simpa using hk
      have : p = (id, v) := by
        obtain ⟨p1, p2⟩ := p
        simp at hk' h ⊢
        exact ⟨hk', h⟩
      simp [this]
    · rw [if_neg hk] at h
      simp [ih h]

theorem cacheKeys_set_of_isSome (c : ActiveFileCache) (id : String)
    (v : CacheItem) (h : (c.find? (fun p => p.1 == id)).isSome = true) :
    cacheKeys (cacheSet c id v) = cacheKeys c := by
  unfold cacheSet
  rw [if_pos h]
  unfold cacheKeys
  rw [List.map_map]
  apply List.map_congr_left
  intro p _
  by_cases hk : (p.1 == id) = true
  · have hk' : p.1 = id := by simpa using hk
    simp [hk, hk']
  · have hk' : ¬p.1 = id := by simpa using hk
    simp [hk']

theorem cacheKeys_set_of_none (c : ActiveFileCache) (id : String)
    (v : CacheItem) (h : ¬(c.find? (fun p => p.1 == id)).isSome = true) :
    cacheKeys (cacheSet c id v) = cacheKeys c ++ [id] := by
  unfold cacheSet
  rw [if_neg h]
  unfold cacheKeys
  rw [List.map_append]
  rfl

theorem nodup_cacheSet {c : ActiveFileCache} (id : String) (v : CacheItem)
    (h : (cacheKeys c).Nodup) : (cacheKeys (cacheSet c id v)).Nodup := by
  by_cases hp : (c.find? (fun p => p.1 == id)).isSome = true
  · rw [cacheKeys_set_of_isSome c id v hp]
    exact h
  · rw [cacheKeys_set_of_none c id v hp]
    have hnm : id ∉ cacheKeys c := by
      intro hmem
      apply hp
      rw [find?_isSome_eq_cacheGet]
      exact (cacheGet_isSome_iff_mem_keys c id).mpr hmem
    simp [List.nodup_append, h, hnm]

theorem updateOne_get_ne (now : Nat) (allowPush : Bool)
    (cache : ActiveFileCache) (effs : List Effect) (occ : Occurrence)
    {id : String} (h : occ.task.id ≠ id) :
    cacheGet (updateOneCore now allowPush cache effs occ).1 id =
      cacheGet cache id := by
  unfold updateOneCore
  split
  · rfl
  · split
    · rfl
    · rfl
    · split
      · exact cacheGet_set_ne cache _ (Ne.symm h)
      · rfl
  · exact cacheGet_set_ne cache _ (Ne.symm h)

theorem updateOne_present_noPush (now : Nat) (cache : ActiveFileCache)
    (effs : List Effect) (occ : Occurrence)
    (h : (cacheGet cache occ.task.id).isSome = true) :
    updateOneCore now false cache effs occ = (cache, effs) := by
  unfold updateOneCore
  split
  · rfl
  · split
    · rfl
    · rfl
    · rw [if_neg (by simp)]
  · rename_i hn
    rw [hn] at h
    simp at h

theorem updateOne_own_isSome (now : Nat) (allowPush : Bool)
    (cache : ActiveFileCache) (effs : List Effect) (occ : Occurrence) :
    (cacheGet (updateOneCore now allowPush cache effs occ).1
      occ.task.id).isSome = true := by
  unfold updateOneCore
  split
  · rename_i item heq
    dsimp only
    rw [heq]
    rfl
  · rename_i item heq
    split
    · dsimp only
      rw [heq]
      rfl
    · dsimp only
      rw [heq]
      rfl
    · split
      · dsimp only
        rw [cacheGet_set_self]
        rfl
      · dsimp only
        rw [heq]
        rfl
  · dsimp only
    rw [cacheGet_set_self]
    rfl

theorem updateOne_isSome_mono (now : Nat) (allowPush : Bool)
    (cache : ActiveFileCache) (effs : List Effect) (occ : Occurrence)
    {id : String} (h : (cacheGet cache id).isSome = true) :
    (cacheGet (updateOneCore now allowPush cache effs occ).1
      id).isSome = true := by
  by_cases he : occ.task.id = id
  · subst he
    exact updateOne_own_isSome now allowPush cache effs occ
  · rw [updateOne_get_ne now allowPush cache effs occ he]
    exact h

theorem updateOne_todoist_inv (now : Nat) (allowPush : Bool)
    (cache : ActiveFileCache) (effs : List Effect) (occ : Occurrence)
    {id : String} {la : Option Nat} {q : Option RemoteData}
    (h : cacheGet cache id = some (.todoist ⟨la, q⟩)) :
    ∃ la', cacheGet (updateOneCore now allowPush cache effs occ).1
        id = some (.todoist ⟨la', q⟩) ∧ (la' = la ∨ la' = some now) := by
  by_cases he : occ.task.id = id
  · subst he
    unfold updateOneCore
    split
    · rename_i hs
      rw [hs] at h
      simp at h
    · rename_i item hs
      rw [hs] at h
      simp at h
      subst h
      split
      · exact ⟨la, by rw [hs]; exact ⟨rfl, Or.inl rfl⟩⟩
      · exact ⟨la, by rw [hs]; exact ⟨rfl, Or.inl rfl⟩⟩
      · split
        · rw [cacheGet_set_self]
          split
          · exact ⟨some now, rfl, Or.inr rfl⟩
          · exact ⟨la, rfl, Or.inl rfl⟩
        · exact ⟨la, by rw [hs]; exact ⟨rfl, Or.inl rfl⟩⟩
    · rename_i hs
      rw [hs] at h
      simp at h
  · rw [updateOne_get_ne now allowPush cache effs occ he]
    exact ⟨la, h, Or.inl rfl⟩

theorem updateOne_nodup (now : Nat) (allowPush : Bool)
    (cache : ActiveFileCache) (effs : List Effect) (occ : Occurrence)
    (h : (cacheKeys cache).Nodup) :
    (cacheKeys (updateOneCore now allowPush cache effs occ).1).Nodup := by
  unfold updateOneCore
  split
  · exact h
  · split
    · exact h
    · exact h
    · split
      · exact nodup_cacheSet _ _ h
      · exact h
  · exact nodup_cacheSet _ _ h

theorem updateOne_noTaskMutation (now : Nat) (cache : ActiveFileCache)
    (effs : List Effect) (occ : Occurrence)
    (h : effs.filter isTaskMutation = []) :
    ((updateOneCore now false cache effs occ).2).filter
      isTaskMutation = [] := by
  unfold updateOneCore
  split
  · exact h
  · split
    · exact h
    · exact h
    · rw [if_neg (by simp)]
      exact h
  · rw [List.filter_append, h, List.nil_append]
    unfold createCacheEntry
    split
    · rfl
    · rfl

theorem updateOne_pair (now : Nat) (ap : Bool) (cache : ActiveFileCache)
    (effs : List Effect) (occ : Occurrence) :
    updateOneOccurrence now ap (cache, effs) occ =
      updateOneCore now ap cache effs occ := rfl

theorem fold_get_ne (now : Nat) (allowPush : Bool) (rs : List Occurrence)
    (cache : ActiveFileCache) (effs : List Effect) {id : String}
    (h : ∀ occ ∈ rs, occ.task.id ≠ id) :
    cacheGet ((rs.foldl (updateOneOccurrence now allowPush)
      (cache, effs)).1) id = cacheGet cache id := by
  induction rs generalizing cache effs with
  | nil => rfl
  | cons occ rest ih =>
    rw [List.foldl_cons, updateOne_pair]
    cases hstep : updateOneCore now allowPush cache effs occ with
    | mk c1 e1 =>
      have hc1 : cacheGet c1 id = cacheGet cache id := by
        have hg := updateOne_get_ne now allowPush cache effs occ
          (h occ (by simp))
        rw [hstep] at hg
        exact hg
      rw [ih c1 e1 (fun o ho => h o (by simp [ho])), hc1]

theorem fold_present_noPush (now : Nat) (rs : List Occurrence)
    (cache : ActiveFileCache) (effs : List Effect) {id : String}
    (h : (cacheGet cache id).isSome = true) :
    cacheGet ((rs.foldl (updateOneOccurrence now false)
      (cache, effs)).1) id = cacheGet cache id := by
  induction rs generalizing cache effs with
  | nil => rfl
  | cons occ rest ih =>
    rw [List.foldl_cons, updateOne_pair]
    by_cases he : occ.task.id = id
    · rw [updateOne_present_noPush now cache effs occ (by rw [he]; exact h)]
      exact ih cache effs h
    · cases hstep : updateOneCore now false cache effs occ with
      | mk c1 e1 =>
        have hc1 : cacheGet c1 id = cacheGet cache id := by
          have hg := updateOne_get_ne now false cache effs occ he
          rw [hstep] at hg
          exact hg
        rw [ih c1 e1 (by rw [hc1]; exact h), hc1]

theorem fold_isSome_mono (now : Nat) (ap : Bool) (rs : List Occurrence)
    (cache : ActiveFileCache) (effs : List Effect) {id : String}
    (h : (cacheGet cache id).isSome = true) :
    (cacheGet ((rs.foldl (updateOneOccurrence now ap)
      (cache, effs)).1) id).isSome = true := by
  induction rs generalizing cache effs with
  | nil => exact h
  | cons occ rest ih =>
    rw [List.foldl_cons, updateOne_pair]
    cases hstep : updateOneCore now ap cache effs occ with
    | mk c1 e1 =>
      apply ih c1 e1
      have := updateOne_isSome_mono now ap cache effs occ h
      rw [hstep] at this
      exact this

theorem fold_mem_isSome (now : Nat) (ap : Bool) {rs : List Occurrence}
    (cache : ActiveFileCache) (effs : List Effect) {occ : Occurrence}
    (h : occ ∈ rs) :
    (cacheGet ((rs.foldl (updateOneOccurrence now ap)
      (cache, effs)).1) occ.task.id).isSome = true := by
  induction rs generalizing cache effs with
  | nil => cases h
  | cons o rest ih =>
    rw [List.foldl_cons, updateOne_pair]
    cases hstep : updateOneCore now ap cache effs o with
    | mk c1 e1 =>
      rcases List.mem_cons.mp h with rfl | hmem
      · apply fold_isSome_mono
        have := updateOne_own_isSome now ap cache effs occ
        rw [hstep] at this
        exact this
      · exact ih c1 e1 hmem

theorem fold_nodup (now : Nat) (ap : Bool) (rs : List Occurrence)
    (cache : ActiveFileCache) (effs : List Effect)
    (h : (cacheKeys cache).Nodup) :
    (cacheKeys ((rs.foldl (updateOneOccurrence now ap)
      (cache, effs)).1)).Nodup := by
  induction rs generalizing cache effs with
  | nil => exact h
  | cons occ rest ih =>
    rw [List.foldl_cons, updateOne_pair]
    cases hstep : updateOneCore now ap cache effs occ with
    | mk c1 e1 =>
      apply ih c1 e1
      have := updateOne_nodup now ap cache effs occ h
      rw [hstep] at this
      exact this

theorem fold_noTaskMutation (now : Nat) (rs : List Occurrence)
    (cache : ActiveFileCache) (effs : List Effect)
    (h : effs.filter isTaskMutation = []) :
    (((rs.foldl (updateOneOccurrence now false) (cache, effs)).2)).filter
      isTaskMutation = [] := by
  induction rs generalizing cache effs with
  | nil => exact h
  | cons occ rest ih =>
    rw [List.foldl_cons, updateOne_pair]
    cases hstep : updateOneCore now false cache effs occ with
    | mk c1 e1 =>
      apply ih c1 e1
      have := updateOne_noTaskMutation now cache effs occ h
      rw [hstep] at this
      exact this

theorem fold_synced_noop (now : Nat) (rs : List Occurrence)
    (cache : ActiveFileCache) (effs : List Effect)
    (h : ∀ occ ∈ rs, ∃ e : TodoistItem, ∃ rt : ObsidianTask,
      cacheGet cache occ.task.id = some (.todoist e) ∧
      e.queryData = some (.task rt) ∧ rt.content = occ.task.content ∧
      rt.checked = occ.task.checked) :
    rs.foldl (updateOneOccurrence now true) (cache, effs) =
      (cache, effs) := by
  induction rs generalizing effs with
  | nil => rfl
  | cons occ rest ih =>
    obtain ⟨e, rt, hget, hqd, hcont, hchk⟩ := h occ (by simp)
    have hstep : updateOneCore now true cache effs occ = (cache, effs) := by
      unfold updateOneCore
      rw [hget]
      dsimp only
      rw [hqd]
      dsimp only
      have ht : tasksEquals rt occ.task = true := by
        unfold tasksEquals
        rw [hcont, hchk]
        simp
      rw [if_neg (by simp [ht])]
    rw [List.foldl_cons, updateOne_pair, hstep]
    exact ih effs (fun o ho => h o (by simp [ho]))

theorem sweepEffects_only_destroy {existed : List String}
    {c : ActiveFileCache} {e : Effect} (h : e ∈ sweepEffects existed c) :
    ∃ i, e = Effect.destroyQuery i := by
  unfold sweepEffects at h
  obtain ⟨p, _, hcond⟩ := List.mem_filterMap.mp h
  split at hcond
  · simp at hcond
  · split at hcond
    · simp at hcond
    · simp at hcond
      exact ⟨p.1, hcond.symm⟩

theorem destroy_mem_sweepEffects {existed : List String}
    {c : ActiveFileCache} {id : String} {e : TodoistItem}
    (hmem : (id, CacheItem.todoist e) ∈ c)
    (hno : existed.contains id = false) :
    Effect.destroyQuery id ∈ sweepEffects existed c := by
  unfold sweepEffects
  apply List.mem_filterMap.mpr
  refine ⟨(id, .todoist e), hmem, ?_⟩
  simp only [hno, isObsidianCacheItem]
  rfl

theorem updateActiveFileCache_eq (now : Nat) (cache : ActiveFileCache)
    (rs : List Occurrence) (ap : Bool) :
    updateActiveFileCache now cache rs ap =
      (((rs.foldl (updateOneOccurrence now ap) (cache, [])).1).filter
        (fun p => (rs.map (fun o => o.task.id)).contains p.1),
       (rs.foldl (updateOneOccurrence now ap) (cache, [])).2 ++
         sweepEffects (rs.map (fun o => o.task.id))
           (rs.foldl (updateOneOccurrence now ap) (cache, [])).1) := rfl

/-- C2: reconciliation is idempotent — when every occurrence's task has a
remote-backed cache entry whose last-known remote value has the same
content and checked state, `#updateActiveFileCache` with pushes allowed
issues no remote mutation (no checked-toggle, no content-update, no create)
and performs no document write. -/
theorem c2_reconcile_idempotent (now : Nat) (cache : ActiveFileCache)
    (rs : List Occurrence)
    (h : ∀ occ ∈ rs, ∃ e : TodoistItem, ∃ rt : ObsidianTask,
      cacheGet cache occ.task.id = some (.todoist e) ∧
      e.queryData = some (.task rt) ∧ rt.content = occ.task.content ∧
      rt.checked = occ.task.checked) :
    ((updateActiveFileCache now cache rs true).2).filter isPushEffect
      = [] := by
  rw [updateActiveFileCache_eq, fold_synced_noop now rs cache [] h]
  dsimp only
  rw [List.nil_append, List.filter_eq_nil_iff]
  intro e he
  obtain ⟨i, rfl⟩ := sweepEffects_only_destroy he
  simp [isPushEffect]

/-- Witness for C2: a cache entry in sync with the single occurrence —
no push effects. -/
theorem c2_reconcile_idempotent_witness :
    ((updateActiveFileCache 5
      [("1", CacheItem.todoist ⟨none, some (.task ⟨"1", "a", false⟩)⟩)]
      [⟨⟨"1", "a", false⟩, 0, false, ⟨0, 0⟩, ⟨0, 1⟩⟩] true).2).filter
      isPushEffect = [] := by
  apply c2_reconcile_idempotent
  intro occ hocc
  simp at hocc
  subst hocc
  exact ⟨⟨none, some (.task ⟨"1", "a", false⟩)⟩, ⟨"1", "a", false⟩,
    rfl, rfl, rfl, rfl⟩

/-- C10: with `allowPush = false`, `#updateActiveFileCache` issues no
content-update and no checked-toggle mutation and leaves every existing
remote-backed entry — its `lastLocalEditAt` timestamp included — exactly
unchanged, even when the occurrence differs from the cached remote value;
teardown of absent ids and creation of entries for unknown ids still
occur. -/
theorem c10_no_push_when_disallowed (now : Nat) (cache : ActiveFileCache)
    (rs : List Occurrence) (idp ida : String) (e : TodoistItem)
    (occ : Occurrence)
    (h1 : cacheGet cache idp = some (.todoist e))
    (h2 : idp ∈ rs.map (fun o => o.task.id))
    (h3 : ida ∉ rs.map (fun o => o.task.id))
    (h4 : occ ∈ rs)
    (h5 : cacheGet cache occ.task.id = none) :
    ((updateActiveFileCache now cache rs false).2).filter isTaskMutation
        = [] ∧
      cacheGet (updateActiveFileCache now cache rs false).1 idp =
        some (.todoist e) ∧
      cacheGet (updateActiveFileCache now cache rs false).1 ida = none ∧
      (cacheGet (updateActiveFileCache now cache rs false).1
        occ.task.id).isSome = true := by
  rw [updateActiveFileCache_eq]
  dsimp only
  refine ⟨?_, ?_, ?_, ?_⟩
  · rw [List.filter_append, fold_noTaskMutation now rs cache [] rfl,
      List.nil_append, List.filter_eq_nil_iff]
    intro x hx
    obtain ⟨i, rfl⟩ := sweepEffects_only_destroy hx
    simp [isTaskMutation]
  · rw [cacheGet_filter_key, if_pos (List.elem_iff.mpr h2),
      fold_present_noPush now rs cache [] (by simp [h1]), h1]
  · rw [cacheGet_filter_key]
    have hc : (rs.map (fun o => o.task.id)).contains ida = false := by
      cases hcc : (rs.map (fun o => o.task.id)).contains ida
      · rfl
      · exact absurd (List.elem_iff.mp hcc) h3
    rw [hc]
    simp
  · rw [cacheGet_filter_key]
    have hp : (rs.map (fun o => o.task.id)).contains occ.task.id = true :=
      List.elem_iff.mpr (List.mem_map.mpr ⟨occ, h4, rfl⟩)
    rw [hp, if_pos rfl]
    exact fold_mem_isSome now false cache [] h4

/-- Witness for C10: a differing tracked id "1", an absent id "2", and an
unknown durable id "3". -/
theorem c10_no_push_when_disallowed_witness :
    ((updateActiveFileCache 7
        [("1", CacheItem.todoist ⟨some 3, some (.task ⟨"1", "a", false⟩)⟩),
         ("2", CacheItem.todoist ⟨none, some (.task ⟨"2", "b", true⟩)⟩)]
        [⟨⟨"1", "changed", true⟩, 0, false, ⟨0, 0⟩, ⟨0, 1⟩⟩,
         ⟨⟨"3", "new", false⟩, 1, false, ⟨1, 0⟩, ⟨1, 1⟩⟩]
        false).2).filter isTaskMutation = [] ∧
      cacheGet (updateActiveFileCache 7
        [("1", CacheItem.todoist ⟨some 3, some (.task ⟨"1", "a", false⟩)⟩),
         ("2", CacheItem.todoist ⟨none, some (.task ⟨"2", "b", true⟩)⟩)]
        [⟨⟨"1", "changed", true⟩, 0, false, ⟨0, 0⟩, ⟨0, 1⟩⟩,
         ⟨⟨"3", "new", false⟩, 1, false, ⟨1, 0⟩, ⟨1, 1⟩⟩]
        false).1 "1" =
        some (.todoist ⟨some 3, some (.task ⟨"1", "a", false⟩)⟩) ∧
      cacheGet (updateActiveFileCache 7
        [("1", CacheItem.todoist ⟨some 3, some (.task ⟨"1", "a", false⟩)⟩),
         ("2", CacheItem.todoist ⟨none, some (.task ⟨"2", "b", true⟩)⟩)]
        [⟨⟨"1", "changed", true⟩, 0, false, ⟨0, 0⟩, ⟨0, 1⟩⟩,
         ⟨⟨"3", "new", false⟩, 1, false, ⟨1, 0⟩, ⟨1, 1⟩⟩]
        false).1 "2" = none ∧
      (cacheGet (updateActiveFileCache 7
        [("1", CacheItem.todoist ⟨some 3, some (.task ⟨"1", "a", false⟩)⟩),
         ("2", CacheItem.todoist ⟨none, some (.task ⟨"2", "b", true⟩)⟩)]
        [⟨⟨"1", "changed", true⟩, 0, false, ⟨0, 0⟩, ⟨0, 1⟩⟩,
         ⟨⟨"3", "new", false⟩, 1, false, ⟨1, 0⟩, ⟨1, 1⟩⟩]
        false).1 "3").isSome = true :=
  c10_no_push_when_disallowed 7
    [("1", CacheItem.todoist ⟨some 3, some (.task ⟨"1", "a", false⟩)⟩),
     ("2", CacheItem.todoist ⟨none, some (.task ⟨"2", "b", true⟩)⟩)]
    [⟨⟨"1", "changed", true⟩, 0, false, ⟨0, 0⟩, ⟨0, 1⟩⟩,
     ⟨⟨"3", "new", false⟩, 1, false, ⟨1, 0⟩, ⟨1, 1⟩⟩]
    "1" "2" ⟨some 3, some (.task ⟨"1", "a", false⟩)⟩
    ⟨⟨"3", "new", false⟩, 1, false, ⟨1, 0⟩, ⟨1, 1⟩⟩
    (by decide) (by decide) (by decide) (by decide) (by decide)

/-- C4: the cache key-set invariant — keys stay pairwise distinct, after a
run of `#updateActiveFileCache` the key set equals exactly the set of task
ids of the occurrence list, and a remote-backed entry removed by the sweep
has its query subscription destroyed. -/
theorem c4_cache_key_invariant (now : Nat) (cache : ActiveFileCache)
    (rs : List Occurrence) (allowPush : Bool) (id : String)
    (e : TodoistItem)
    (hnd : (cacheKeys cache).Nodup)
    (h1 : cacheGet cache id = some (.todoist e))
    (h2 : id ∉ rs.map (fun o => o.task.id)) :
    (cacheKeys (updateActiveFileCache now cache rs allowPush).1).Nodup ∧
      (cacheKeys (updateActiveFileCache now cache rs allowPush).1).toFinset
        = (rs.map (fun o => o.task.id)).toFinset ∧
      Effect.destroyQuery id ∈
        (updateActiveFileCache now cache rs allowPush).2 := by
  rw [updateActiveFileCache_eq]
  dsimp only
  refine ⟨?_, ?_, ?_⟩
  · have hf := fold_nodup now allowPush rs cache [] hnd
    have hsub : ((rs.foldl (updateOneOccurrence now allowPush)
        (cache, [])).1.filter
        (fun p => (rs.map (fun o => o.task.id)).contains p.1)).Sublist
        (rs.foldl (updateOneOccurrence now allowPush) (cache, [])).1 :=
      List.filter_sublist _
    exact List.Pairwise.sublist (List.Sublist.map Prod.fst hsub) hf
  · apply Finset.ext
    intro x
    rw [List.mem_toFinset, List.mem_toFinset,
      ← cacheGet_isSome_iff_mem_keys, cacheGet_filter_key]
    constructor
    · intro hx
      by_cases hc : (rs.map (fun o => o.task.id)).contains x = true
      · exact List.elem_iff.mp hc
      · rw [if_neg hc] at hx
        simp at hx
    · intro hx
      rw [if_pos (List.elem_iff.mpr hx)]
      obtain ⟨occ, hocc, rfl⟩ := List.mem_map.mp hx
      exact fold_mem_isSome now allowPush cache [] hocc
  · apply List.mem_append.mpr
    right
    have hget : cacheGet ((rs.foldl (updateOneOccurrence now allowPush)
        (cache, [])).1) id = some (.todoist e) := by
      rw [fold_get_ne now allowPush rs cache []
        (fun o ho hoe => h2 (List.mem_map.mpr ⟨o, ho, hoe⟩))]
      exact h1
    have hno : (rs.map (fun o => o.task.id)).contains id = false := by
      cases hcc : (rs.map (fun o => o.task.id)).contains id
      · rfl
      · exact absurd (List.elem_iff.mp hcc) h2
    exact destroy_mem_sweepEffects (cacheGet_some_mem hget) hno

/-- Witness for C4: a cache with a surviving id "1" and a swept id "2". -/
theorem c4_cache_key_invariant_witness :
    (cacheKeys (updateActiveFileCache 5
      [("1", CacheItem.todoist ⟨none, some (.task ⟨"1", "a", false⟩)⟩),
       ("2", CacheItem.todoist ⟨none, some (.task ⟨"2", "b", true⟩)⟩)]
      [⟨⟨"1", "a", false⟩, 0, false, ⟨0, 0⟩, ⟨0, 1⟩⟩] true).1).Nodup ∧
      (cacheKeys (updateActiveFileCache 5
        [("1", CacheItem.todoist ⟨none, some (.task ⟨"1", "a", false⟩)⟩),
         ("2", CacheItem.todoist ⟨none, some (.task ⟨"2", "b", true⟩)⟩)]
        [⟨⟨"1", "a", false⟩, 0, false, ⟨0, 0⟩, ⟨0, 1⟩⟩] true).1).toFinset =
        (([⟨⟨"1", "a", false⟩, 0, false, ⟨0, 0⟩, ⟨0, 1⟩⟩] :
          List Occurrence).map (fun o => o.task.id)).toFinset ∧
      Effect.destroyQuery "2" ∈ (updateActiveFileCache 5
        [("1", CacheItem.todoist ⟨none, some (.task ⟨"1", "a", false⟩)⟩),
         ("2", CacheItem.todoist ⟨none, some (.task ⟨"2", "b", true⟩)⟩)]
        [⟨⟨"1", "a", false⟩, 0, false, ⟨0, 0⟩, ⟨0, 1⟩⟩] true).2 :=
  c4_cache_key_invariant 5
    [("1", CacheItem.todoist ⟨none, some (.task ⟨"1", "a", false⟩)⟩),
     ("2", CacheItem.todoist ⟨none, some (.task ⟨"2", "b", true⟩)⟩)]
    [⟨⟨"1", "a", false⟩, 0, false, ⟨0, 0⟩, ⟨0, 1⟩⟩] true "2"
    ⟨none, some (.task ⟨"2", "b", true⟩)⟩
    (by decide) (by decide) (by decide)

theorem fold_todoist_inv (now : Nat) (ap : Bool) (rs : List Occurrence)
    (cache : ActiveFileCache) (effs : List Effect) {id : String}
    {la : Option Nat} {q : Option RemoteData}
    (h : cacheGet cache id = some (.todoist ⟨la, q⟩)) :
    ∃ la', cacheGet ((rs.foldl (updateOneOccurrence now ap)
        (cache, effs)).1) id = some (.todoist ⟨la', q⟩) ∧
      (la' = la ∨ la' = some now) := by
  induction rs generalizing cache effs la with
  | nil => exact ⟨la, h, Or.inl rfl⟩
  | cons occ rest ih =>
    rw [List.foldl_cons, updateOne_pair]
    cases hstep : updateOneCore now ap cache effs occ with
    | mk c1 e1 =>
      obtain ⟨la1, hget1, hd1⟩ := updateOne_todoist_inv now ap cache effs occ h
      rw [hstep] at hget1
      obtain ⟨la2, hget2, hd2⟩ := ih c1 e1 hget1
      refine ⟨la2, hget2, ?_⟩
      rcases hd2 with rfl | rfl
      · exact hd1
      · exact Or.inr rfl

theorem updateOne_pushes (now : Nat) (cache : ActiveFileCache)
    (effs : List Effect) (occ : Occurrence) {la : Option Nat}
    {rt : ObsidianTask}
    (hget : cacheGet cache occ.task.id =
      some (.todoist ⟨la, some (.task rt)⟩))
    (hdiff : rt.content ≠ occ.task.content) :
    cacheGet (updateOneCore now true cache effs occ).1 occ.task.id =
      some (.todoist ⟨some now, some (.task rt)⟩) := by
  unfold updateOneCore
  rw [hget]
  dsimp only
  have ht : tasksEquals rt occ.task = false := by
    unfold tasksEquals
    have : (rt.content == occ.task.content) = false := by simp [hdiff]
    rw [this, Bool.false_and]
  rw [if_pos (by simp [ht])]
  dsimp only
  rw [cacheGet_set_self]
  have hb : (rt.content != occ.task.content) = true := by simp [hdiff]
  rw [hb, Bool.or_true, if_pos rfl]

theorem fold_push_timestamp (now : Nat) (rs : List Occurrence)
    (cache : ActiveFileCache) (effs : List Effect) {id : String}
    {la : Option Nat} {rt : ObsidianTask} {occ : Occurrence}
    (h1 : cacheGet cache id = some (.todoist ⟨la, some (.task rt)⟩))
    (h4 : occ ∈ rs) (h5 : occ.task.id = id)
    (h6 : rt.content ≠ occ.task.content) :
    cacheGet ((rs.foldl (updateOneOccurrence now true)
        (cache, effs)).1) id =
      some (.todoist ⟨some now, some (.task rt)⟩) := by
  induction rs generalizing cache effs la with
  | nil => cases h4
  | cons o rest ih =>
    rw [List.foldl_cons, updateOne_pair]
    cases hstep : updateOneCore now true cache effs o with
    | mk c1 e1 =>
      rcases List.mem_cons.mp h4 with rfl | hmem
      · subst h5
        have hp := updateOne_pushes now cache effs occ h1 h6
        rw [hstep] at hp
        obtain ⟨la', hget', hd'⟩ := fold_todoist_inv now true rest c1 e1 hp
        rcases hd' with rfl | rfl
        · exact hget'
        · exact hget'
      · obtain ⟨la1, hget1, _⟩ :=
          updateOne_todoist_inv now true cache effs o h1
        rw [hstep] at hget1
        exact ih c1 e1 hget1 hmem

theorem onQueryUpdateFile_suppressed (now t : Nat)
    (cache : ActiveFileCache) (content : String) (r : RemoteData)
    {e : TodoistItem}
    (hget : cacheGet cache r.rid = some (.todoist e))
    (hts : e.lastLocalEditAt = some t)
    (hwin : now - t < 2000) :
    onQueryUpdateFile now cache content r =
      (docLines content, cache, []) := by
  unfold onQueryUpdateFile
  have hr : recentLocalEdit now (cacheGet cache r.rid) = true := by
    unfold recentLocalEdit
    rw [hget]
    dsimp only
    rw [hts]
    dsimp only
    simp [hwin]
  rw [if_pos hr]

/-- C3: echo suppression — a local edit pushed by `#updateActiveFileCache`
at time `t` stamps the entry's `lastLocalEditAt` with `t`, and any remote
query update for that task id arriving at a time `now` with
`now - t < 2000` causes no document write and no text change (the returned
document equals the input document, the cache is untouched, and no effects
are issued); in particular a refetch reporting the pre-edit content does
not revert the local text. -/
theorem c3_echo_suppression (t now : Nat) (cache : ActiveFileCache)
    (content : String) (r : RemoteData) (rs : List Occurrence)
    (occ : Occurrence) (id : String) (la : Option Nat) (rt : ObsidianTask)
    (h1 : cacheGet cache id = some (.todoist ⟨la, some (.task rt)⟩))
    (h2 : occ ∈ rs) (h3 : occ.task.id = id)
    (h4 : rt.content ≠ occ.task.content)
    (h5 : r.rid = id)
    (h6 : now - t < 2000) :
    cacheGet (updateActiveFileCache t cache rs true).1 id =
        some (.todoist ⟨some t, some (.task rt)⟩) ∧
      onQueryUpdateFile now (updateActiveFileCache t cache rs true).1
          content r =
        (docLines content, (updateActiveFileCache t cache rs true).1,
          []) := by
  have hstamp : cacheGet (updateActiveFileCache t cache rs true).1 id =
      some (.todoist ⟨some t, some (.task rt)⟩) := by
    rw [updateActiveFileCache_eq]
    dsimp only
    rw [cacheGet_filter_key,
      if_pos (List.elem_iff.mpr (List.mem_map.mpr ⟨occ, h2, h3⟩))]
    exact fold_push_timestamp t rs cache [] h1 h2 h3 h4
  refine ⟨hstamp, ?_⟩
  exact onQueryUpdateFile_suppressed now t _ content r
    (by rw [h5]; exact hstamp) rfl h6

/-- Witness for C3: the pre-edit refetch arriving 1500 ms after the push
changes nothing. -/
theorem c3_echo_suppression_witness :
    cacheGet (updateActiveFileCache 1000
        [("1", CacheItem.todoist ⟨none, some (.task ⟨"1", "old", false⟩)⟩)]
        [⟨⟨"1", "new", false⟩, 0, false, ⟨0, 0⟩, ⟨0, 1⟩⟩] true).1 "1" =
        some (.todoist ⟨some 1000, some (.task ⟨"1", "old", false⟩)⟩) ∧
      onQueryUpdateFile 2500 (updateActiveFileCache 1000
          [("1", CacheItem.todoist ⟨none, some (.task ⟨"1", "old", false⟩)⟩)]
          [⟨⟨"1", "new", false⟩, 0, false, ⟨0, 0⟩, ⟨0, 1⟩⟩] true).1
          "- [ ] new tid:1" (.task ⟨"1", "old", false⟩) =
        ((docLines "- [ ] new tid:1"), (updateActiveFileCache 1000
          [("1", CacheItem.todoist ⟨none, some (.task ⟨"1", "old", false⟩)⟩)]
          [⟨⟨"1", "new", false⟩, 0, false, ⟨0, 0⟩, ⟨0, 1⟩⟩] true).1, []) :=
  c3_echo_suppression 1000 2500
    [("1", CacheItem.todoist ⟨none, some (.task ⟨"1", "old", false⟩)⟩)]
    "- [ ] new tid:1" (.task ⟨"1", "old", false⟩)
    [⟨⟨"1", "new", false⟩, 0, false, ⟨0, 0⟩, ⟨0, 1⟩⟩]
    ⟨⟨"1", "new", false⟩, 0, false, ⟨0, 0⟩, ⟨0, 1⟩⟩ "1" none
    ⟨"1", "old", false⟩ (by decide) (by decide) (by decide) (by decide)
    (by decide) (by decide)

theorem not_mem_of_contains_false {α : Type} [BEq α] [LawfulBEq α]
    {l : List α} {a : α} (h : l.contains a = false) : a ∉ l := by
  intro hm
  have hc : l.contains a = true := List.elem_iff.mpr hm
  rw [hc] at h
  simp at h

theorem insertDesc_of_lt_all {x : Occurrence} {l : List Occurrence}
    (h : ∀ y ∈ l, x.lineNumber < y.lineNumber) :
    insertDesc x l = l ++ [x] := by
  induction l with
  | nil => rfl
  | cons y ys ih =>
    rw [insertDesc, if_neg (by have := h y (by simp); omega)]
    rw [ih (fun z hz => h z (by simp [hz])), List.cons_append]

theorem sortByLineDesc_of_asc {l : List Occurrence}
    (h : l.Pairwise (fun a b => a.lineNumber < b.lineNumber)) :
    sortByLineDesc l = l.reverse := by
  induction l with
  | nil => rfl
  | cons a rest ih =>
    unfold sortByLineDesc
    rw [List.foldr_cons]
    have hrest : sortByLineDesc rest = rest.reverse :=
      ih (List.pairwise_cons.mp h).2
    unfold sortByLineDesc at hrest
    rw [hrest, insertDesc_of_lt_all (fun y hy =>
      (List.pairwise_cons.mp h).1 y (List.mem_reverse.mp hy))]
    rw [List.reverse_cons]

theorem rmFrom_all_lt {s : List Nat} {k : Nat} (lines : List (List Char))
    (h : ∀ m ∈ s, m < k) : removeLineNumbersFrom s k lines = lines := by
  induction lines generalizing k with
  | nil => rfl
  | cons l rest ih =>
    rw [removeLineNumbersFrom]
    have hc : s.contains k = false := by
      cases hcc : s.contains k
      · rfl
      · have := h k (List.elem_iff.mp hcc)
        omega
    rw [hc]
    simp only [Bool.false_eq_true, if_false]
    rw [ih (fun m hm => by have := h m hm; omega)]

theorem rmFrom_eraseIdx (s : List Nat) (k n : Nat)
    (lines : List (List Char)) (hn : n < lines.length)
    (hS : ∀ m ∈ s, m < k + n) :
    removeLineNumbersFrom s k (lines.eraseIdx n) =
      removeLineNumbersFrom ((k + n) :: s) k lines := by
  induction lines generalizing k n with
  | nil => simp at hn
  | cons l rest ih =>
    cases n with
    | zero =>
      rw [List.eraseIdx_cons_zero]
      rw [rmFrom_all_lt rest (fun m hm => by have := hS m hm; omega)]
      rw [removeLineNumbersFrom]
      have hc : (((k + 0) :: s).contains k) = true := by
        apply List.elem_iff.mpr
        simp
      rw [hc]
      simp only [if_true]
      rw [rmFrom_all_lt rest (fun m hm => by
        rcases List.mem_cons.mp hm with rfl | hm
        · omega
        · have := hS m hm; omega)]
    | succ n' =>
      rw [List.eraseIdx_cons_succ]
      rw [removeLineNumbersFrom, removeLineNumbersFrom]
      have hc : ((((k + (n' + 1))) :: s).contains k) = (s.contains k) := by
        cases hcc : s.contains k
        · cases hcc2 : ((((k + (n' + 1))) :: s).contains k)
          · rfl
          · have := List.elem_iff.mp hcc2
            rcases List.mem_cons.mp this with he | hm
            · omega
            · exact absurd hm (not_mem_of_contains_false hcc)
        · apply List.elem_iff.mpr
          simp [List.elem_iff.mp hcc]
      rw [hc]
      have hrec : removeLineNumbersFrom s (k + 1) (rest.eraseIdx n') =
          removeLineNumbersFrom ((k + (n' + 1)) :: s) (k + 1) rest := by
        have := ih (k + 1) n' (by simpa using hn)
          (fun m hm => by have := hS m hm; omega)
        rw [show k + 1 + n' = k + (n' + 1) by omega] at this
        exact this
      rw [hrec]

theorem foldl_eraseIdx_desc (occs : List Occurrence)
    (lines : List (List Char))
    (hdesc : occs.Pairwise (fun a b => b.lineNumber < a.lineNumber))
    (hlt : ∀ o ∈ occs, o.lineNumber < lines.length) :
    occs.foldl (fun ls o => ls.eraseIdx o.lineNumber) lines =
      removeLineNumbers (occs.map (fun o => o.lineNumber)) lines := by
  induction occs generalizing lines with
  | nil =>
    unfold removeLineNumbers
    rw [rmFrom_all_lt lines (by simp)]
    rfl
  | cons o os ih =>
    rw [List.foldl_cons]
    have hn : o.lineNumber < lines.length := hlt o (by simp)
    have hih := ih (lines.eraseIdx o.lineNumber)
      (List.pairwise_cons.mp hdesc).2
      (fun x hx => by
        have h1 := (List.pairwise_cons.mp hdesc).1 x hx
        rw [List.length_eraseIdx_of_lt hn]
        omega)
    rw [hih]
    unfold removeLineNumbers
    have := rmFrom_eraseIdx (os.map (fun o => o.lineNumber)) 0 o.lineNumber
      lines hn (fun m hm => by
        obtain ⟨x, hx, rfl⟩ := List.mem_map.mp hm
        have := (List.pairwise_cons.mp hdesc).1 x hx
        omega)
    rw [this]
    rw [List.map_cons]
    rw [show (0 + o.lineNumber) = o.lineNumber by omega]

theorem removeTaskFromFile_eq (content : String) (taskId : String) :
    removeTaskFromFile content taskId =
      removeLineNumbers (((parseContent content).filter
        (fun o => o.task.id == taskId)).map (fun o => o.lineNumber))
        (docLines content) := by
  unfold removeTaskFromFile
  dsimp only
  have hasc : ((parseContent content).filter
      (fun o => o.task.id == taskId)).Pairwise
      (fun a b => a.lineNumber < b.lineNumber) :=
    List.Pairwise.sublist (List.filter_sublist _)
      (parseLinesAux_pairwise _ 0 false)
  rw [sortByLineDesc_of_asc hasc]
  have hdesc : (((parseContent content).filter
      (fun o => o.task.id == taskId)).reverse).Pairwise
      (fun a b => b.lineNumber < a.lineNumber) := by
    rw [List.pairwise_reverse]
    exact hasc
  rw [foldl_eraseIdx_desc _ _ hdesc (fun o ho => by
    have hmem : o ∈ parseContent content :=
      List.mem_of_mem_filter (List.mem_reverse.mp ho)
    exact (mem_parseContent hmem).1)]
  unfold removeLineNumbers
  have hcont : ∀ m, ((((parseContent content).filter
      (fun o => o.task.id == taskId)).reverse).map
      (fun o => o.lineNumber)).contains m =
      ((((parseContent content).filter
      (fun o => o.task.id == taskId))).map
      (fun o => o.lineNumber)).contains m := by
    intro m
    cases hc : ((((parseContent content).filter
        (fun o => o.task.id == taskId))).map
        (fun o => o.lineNumber)).contains m
    · cases hc2 : ((((parseContent content).filter
          (fun o => o.task.id == taskId)).reverse).map
          (fun o => o.lineNumber)).contains m
      · rfl
      · have := List.elem_iff.mp hc2
        rw [List.map_reverse, List.mem_reverse] at this
        exact absurd this (not_mem_of_contains_false hc)
    · have := List.elem_iff.mp hc
      apply List.elem_iff.mpr
      rw [List.map_reverse, List.mem_reverse]
      exact this
  have hgen : ∀ (k : Nat) (ls : List (List Char)),
      removeLineNumbersFrom ((((parseContent content).filter
        (fun o => o.task.id == taskId)).reverse).map
        (fun o => o.lineNumber)) k ls =
      removeLineNumbersFrom ((((parseContent content).filter
        (fun o => o.task.id == taskId))).map
        (fun o => o.lineNumber)) k ls := by
    intro k ls
    induction ls generalizing k with
    | nil => rfl
    | cons l rest ih =>
      rw [removeLineNumbersFrom, removeLineNumbersFrom, hcont k, ih]
  exact hgen 0 (docLines content)

theorem cacheGet_deleteE_self (c : ActiveFileCache) (id : String) :
    cacheGet (cacheDeleteE c id).1 id = none := by
  unfold cacheDeleteE
  cases hg : cacheGet c id with
  | none => exact hg
  | some item =>
    dsimp only
    have hk := cacheGet_filter_key c (fun x => !(x == id)) id
    rw [hk]
    simp

theorem cacheDeleteE_effects_todoist {c : ActiveFileCache} {id : String}
    {e : TodoistItem} (h : cacheGet c id = some (.todoist e)) :
    (cacheDeleteE c id).2 = [Effect.destroyQuery id] := by
  unfold cacheDeleteE
  rw [h]
  rfl

theorem updateCache_todoist_cases (now : Nat) (cache : ActiveFileCache)
    (rs : List Occurrence) (ap : Bool) (id : String) (e : TodoistItem)
    (h : cacheGet cache id = some (.todoist e)) :
    (∃ e', cacheGet (updateActiveFileCache now cache rs ap).1 id =
        some (.todoist e')) ∨
      Effect.destroyQuery id ∈ (updateActiveFileCache now cache rs ap).2 := by
  obtain ⟨la, q⟩ := e
  obtain ⟨la', hget, _⟩ := fold_todoist_inv now ap rs cache [] h
  rw [updateActiveFileCache_eq]
  dsimp only
  by_cases hc : (rs.map (fun o => o.task.id)).contains id = true
  · left
    exact ⟨⟨la', q⟩, by rw [cacheGet_filter_key, hc, if_pos rfl]; exact hget⟩
  · right
    apply List.mem_append.mpr
    right
    have hcf : (rs.map (fun o => o.task.id)).contains id = false := by
      cases hcc : (rs.map (fun o => o.task.id)).contains id
      · rfl
      · exact absurd hcc hc
    exact destroy_mem_sweepEffects (cacheGet_some_mem hget) hcf

theorem onQueryUpdateFile_deleted_eq (now : Nat) (cache : ActiveFileCache)
    (content : String) (tid : String)
    (hr : recentLocalEdit now (cacheGet cache tid) = false) :
    onQueryUpdateFile now cache content (.deleted tid) =
      (removeTaskFromFile content tid,
       (cacheDeleteE (refreshActiveCacheFromFile now cache
         (removeTaskFromFile content tid)).1 tid).1,
       (if removeTaskFromFile content tid = docLines content then []
        else [Effect.docWrite (removeTaskFromFile content tid)]) ++
         (refreshActiveCacheFromFile now cache
           (removeTaskFromFile content tid)).2 ++
         (cacheDeleteE (refreshActiveCacheFromFile now cache
           (removeTaskFromFile content tid)).1 tid).2) := by
  unfold onQueryUpdateFile
  rw [show (RemoteData.deleted tid).rid = tid from rfl,
    if_neg (by simp [hr])]

/-- C6: deletion propagation — when the subscribed remote value for a
tracked remote-backed id reports the task as deleted and the entry is
outside its echo-suppression window, every document line containing an
occurrence of that id is removed from the document, the cache entry for
that id is deleted, and its query subscription is destroyed. -/
theorem c6_deletion_propagation (now : Nat) (cache : ActiveFileCache)
    (content : String) (taskId : String) (e : TodoistItem)
    (h1 : cacheGet cache taskId = some (.todoist e))
    (h2 : ∀ ts, e.lastLocalEditAt = some ts → 2000 ≤ now - ts) :
    (onQueryUpdateFile now cache content (.deleted taskId)).1 =
        removeLineNumbers (((parseContent content).filter
          (fun o => o.task.id == taskId)).map (fun o => o.lineNumber))
          (docLines content) ∧
      cacheGet (onQueryUpdateFile now cache content
        (.deleted taskId)).2.1 taskId = none ∧
      Effect.destroyQuery taskId ∈
        (onQueryUpdateFile now cache content (.deleted taskId)).2.2 := by
  have hr : recentLocalEdit now (cacheGet cache taskId) = false := by
    unfold recentLocalEdit
    rw [h1]
    dsimp only
    cases hts : e.lastLocalEditAt with
    | none => rfl
    | some ts =>
      have hge := h2 ts hts
      simp
      omega
  rw [onQueryUpdateFile_deleted_eq now cache content taskId hr]
  refine ⟨removeTaskFromFile_eq content taskId, cacheGet_deleteE_self _ _, ?_⟩
  rcases updateCache_todoist_cases now cache
      (parseContentLines (removeTaskFromFile content taskId)) false taskId e
      h1 with ⟨e', he'⟩ | hd
  · apply List.mem_append.mpr
    right
    show Effect.destroyQuery taskId ∈ (cacheDeleteE (updateActiveFileCache
      now cache (parseContentLines (removeTaskFromFile content taskId))
      false).1 taskId).2
    rw [cacheDeleteE_effects_todoist he']
    simp
  · apply List.mem_append.mpr
    left
    apply List.mem_append.mpr
    right
    exact hd

/-- Witness for C6: a deleted signal for id "2" removes its line, deletes
the entry and destroys its subscription. -/
theorem c6_deletion_propagation_witness :
    (onQueryUpdateFile 9999
        [("2", CacheItem.todoist ⟨none, some (.task ⟨"2", "b", true⟩)⟩)]
        "- [ ] a tid:1\nkeep\n- [x] b tid:2" (.deleted "2")).1 =
        removeLineNumbers (((parseContent
          "- [ ] a tid:1\nkeep\n- [x] b tid:2").filter
          (fun o => o.task.id == "2")).map (fun o => o.lineNumber))
          (docLines "- [ ] a tid:1\nkeep\n- [x] b tid:2") ∧
      cacheGet (onQueryUpdateFile 9999
        [("2", CacheItem.todoist ⟨none, some (.task ⟨"2", "b", true⟩)⟩)]
        "- [ ] a tid:1\nkeep\n- [x] b tid:2" (.deleted "2")).2.1 "2" =
        none ∧
      Effect.destroyQuery "2" ∈ (onQueryUpdateFile 9999
        [("2", CacheItem.todoist ⟨none, some (.task ⟨"2", "b", true⟩)⟩)]
        "- [ ] a tid:1\nkeep\n- [x] b tid:2" (.deleted "2")).2.2 :=
  c6_deletion_propagation 9999
    [("2", CacheItem.todoist ⟨none, some (.task ⟨"2", "b", true⟩)⟩)]
    "- [ ] a tid:1\nkeep\n- [x] b tid:2" "2"
    ⟨none, some (.task ⟨"2", "b", true⟩)⟩ (by decide)
    (by intro ts hts; cases hts)

theorem isPrefixOf_iff_take {p l : List Char} :
    p.isPrefixOf l = true ↔ l.take p.length = p := by
  induction p generalizing l with
  | nil => simp [List.isPrefixOf]
  | cons a as ih =>
    cases l with
    | nil => simp [List.isPrefixOf]
    | cons b bs =>
      rw [List.isPrefixOf_cons₂]
      rw [List.length_cons, List.take_succ_cons]
      constructor
      · intro h
        obtain ⟨h1, h2⟩ := Bool.and_eq_true_iff.mp h
        have hb : b = a := by
          have := (beq_iff_eq).mp h1
          exact this.symm
        rw [hb, (ih).mp h2]
      · intro h
        have h1 : b = a := (List.cons_eq_cons.mp h).1
        have h2 : bs.take as.length = as := (List.cons_eq_cons.mp h).2
        apply Bool.and_eq_true_iff.mpr
        exact ⟨beq_iff_eq.mpr h1.symm, ih.mpr h2⟩

/-- If `findOcc` reports an occurrence at `i`, the pattern is a prefix of
the document's suffix starting at `i`. -/
theorem findOcc_isPrefixOf {pat doc : List Char} {i : Nat}
    (h : findOcc pat doc = some i) : pat.isPrefixOf (doc.drop i) = true := by
  induction doc generalizing i with
  | nil =>
    rw [findOcc] at h
    by_cases he : pat.isEmpty = true
    · rw [if_pos he] at h
      have hi : i = 0 := by simpa using h.symm
      subst hi
      cases pat with
      | nil => rfl
      | cons p ps => simp [List.isEmpty] at he
    · rw [if_neg he] at h
      simp at h
  | cons c rest ih =>
    rw [findOcc] at h
    by_cases hpre : pat.isPrefixOf (c :: rest) = true
    · rw [if_pos hpre] at h
      have hi : i = 0 := by simpa using h.symm
      subst hi
      exact hpre
    · rw [if_neg hpre] at h
      cases hf : findOcc pat rest with
      | none => rw [hf] at h; simp at h
      | some j =>
        rw [hf] at h
        simp at h
        subst h
        rw [List.drop_succ_cons]
        exact ih hf

theorem drop_eq_of_findOcc {pat doc : List Char} {i : Nat}
    (h : findOcc pat doc = some i) :
    doc.drop i = pat ++ doc.drop (i + pat.length) := by
  have hp := findOcc_isPrefixOf h
  rw [isPrefixOf_iff_take] at hp
  calc doc.drop i
      = (doc.drop i).take pat.length ++ (doc.drop i).drop pat.length :=
        (List.take_append_drop _ _).symm
    _ = pat ++ doc.drop (i + pat.length) := by
        rw [hp, List.drop_drop, Nat.add_comm]

/-- Replacing an occurrence of `pat` by `rep` strictly decreases the number
of occurrences of any character of `pat` absent from `rep`. -/
theorem count_replaceFirst_lt {pat rep doc : List Char} {i : Nat} {c : Char}
    (hc : c ∈ pat) (hcr : c ∉ rep) (h : findOcc pat doc = some i) :
    (doc.take i ++ rep ++ doc.drop (i + pat.length)).count c <
      doc.count c := by
  have hd := drop_eq_of_findOcc h
  have hdoc : doc = doc.take i ++ (pat ++ doc.drop (i + pat.length)) := by
    rw [← hd, List.take_append_drop]
  rw [List.count_append, List.count_append]
  conv_rhs => rw [hdoc]
  rw [List.count_append, List.count_append]
  have h1 : rep.count c = 0 := List.count_eq_zero.mpr hcr
  have h2 : 0 < pat.count c := List.count_pos_iff.mpr hc
  omega

/-- With fuel at least the count of a pattern character absent from the
replacement, the rewrite loop reaches the state with no occurrence left —
the terminal state of the source's unbounded loop. -/
theorem replaceLoop_terminal (pat rep : List Char) (c : Char)
    (hc : c ∈ pat) (hcr : c ∉ rep) :
    ∀ (fuel : Nat) (doc : List Char), doc.count c ≤ fuel →
      findOcc pat (replaceLoop fuel doc pat rep) = none := by
  intro fuel
  induction fuel with
  | zero =>
    intro doc hdoc
    rw [replaceLoop]
    cases hf : findOcc pat doc with
    | none => rfl
    | some i =>
      have hmem : c ∈ doc := by
        have hdr : c ∈ doc.drop i := by
          rw [drop_eq_of_findOcc hf]
          exact List.mem_append_left _ hc
        exact List.mem_of_mem_drop hdr
      have hpos : 0 < doc.count c := List.count_pos_iff.mpr hmem
      exact absurd hdoc (by omega)
  | succ f ih =>
    intro doc hdoc
    rw [replaceLoop]
    cases hf : findOcc pat doc with
    | none =>
      have hrf : replaceFirst pat rep doc = none := by
        unfold replaceFirst
        rw [hf]
        rfl
      rw [hrf]
      exact hf
    | some i =>
      have hrf : replaceFirst pat rep doc =
          some (doc.take i ++ rep ++ doc.drop (i + pat.length)) := by
        unfold replaceFirst
        rw [hf]
        rfl
      rw [hrf]
      apply ih
      have := count_replaceFirst_lt hc hcr hf
      omega

/-- C5: provisional-id promotion — when the remote store confirms creation
of a task tracked under a provisional id that still occurs in the document,
the creation callback rewrites every textual occurrence of the provisional
id to the durable id (no occurrence of the provisional id remains), adds a
remote-backed cache entry under the durable id, and deletes the provisional
cache entry.  The hypothesis asks only that some character of the
provisional id not occur in the durable id: this is the spec's reserved
prefix/format at work, since every provisional id carries the
`obsidian-` marker whose hyphen never occurs in a remote-issued id, while
the durable id may freely share all its other characters with the
provisional one.  It rules out the degenerate durable ids under which the
source's restart-from-zero rewrite loop would run forever, and bounds that
loop by the count of the marker character, so the fuelled embedding with
fuel `doc.length` computes the loop's exact terminal state. -/
theorem c5_provisional_promotion (provId : String) (durTask : ObsidianTask)
    (doc : List Char) (cache : ActiveFileCache) (c : Char)
    (h1 : occursIn provId.data doc = true)
    (h2 : c ∈ provId.data)
    (h3 : c ∉ durTask.id.data) :
    occursIn provId.data (onAddTaskSuccess provId durTask doc cache).1 =
        false ∧
      cacheGet (onAddTaskSuccess provId durTask doc cache).2.1 durTask.id =
        some (.todoist ⟨none, some (.task durTask)⟩) ∧
      cacheGet (onAddTaskSuccess provId durTask doc cache).2.1 provId =
        none := by
  have hne : provId ≠ durTask.id := by
    intro he
    apply h3
    rw [← he]
    exact h2
  unfold onAddTaskSuccess
  rw [if_pos h1]
  dsimp only
  refine ⟨?_, ?_, ?_⟩
  · have hz := replaceLoop_terminal provId.data durTask.id.data c h2 h3
      doc.length doc (List.count_le_length _ _)
    unfold occursIn
    rw [hz]
    rfl
  · unfold cacheDeleteE
    cases hg : cacheGet (cacheSet cache durTask.id
        (.todoist ⟨none, some (.task durTask)⟩)) provId with
    | none =>
      dsimp only
      rw [cacheGet_set_self]
    | some item =>
      dsimp only
      have hk := cacheGet_filter_key (cacheSet cache durTask.id
        (.todoist ⟨none, some (.task durTask)⟩))
        (fun x => !(x == provId)) durTask.id
      rw [hk, if_pos (by simp [Ne.symm hne])]
      rw [cacheGet_set_self]
  · exact cacheGet_deleteE_self _ _

/-- Witness for C5: the provisional placeholder id is rewritten to the
durable id "6Xb7soid" — which shares most of its characters with the
provisional id but, like every remote-issued id, contains no hyphen — and
the cache entries are updated. -/
theorem c5_provisional_promotion_witness :
    occursIn "obsidian-new".data (onAddTaskSuccess "obsidian-new"
        ⟨"6Xb7soid", "n", false⟩ "- [ ] n tid:obsidian-new".data
        [("obsidian-new", CacheItem.obsidian ⟨none⟩)]).1 = false ∧
      cacheGet (onAddTaskSuccess "obsidian-new" ⟨"6Xb7soid", "n", false⟩
        "- [ ] n tid:obsidian-new".data
        [("obsidian-new", CacheItem.obsidian ⟨none⟩)]).2.1 "6Xb7soid" =
        some (.todoist ⟨none, some (.task ⟨"6Xb7soid", "n", false⟩)⟩) ∧
      cacheGet (onAddTaskSuccess "obsidian-new" ⟨"6Xb7soid", "n", false⟩
        "- [ ] n tid:obsidian-new".data
        [("obsidian-new", CacheItem.obsidian ⟨none⟩)]).2.1 "obsidian-new" =
        none :=
  c5_provisional_promotion "obsidian-new" ⟨"6Xb7soid", "n", false⟩
    "- [ ] n tid:obsidian-new".data
    [("obsidian-new", CacheItem.obsidian ⟨none⟩)] (Char.ofNat 45)
    (by decide) (by decide) (by decide)

end Todoister
